import Mathlib

/-!
# halfcache: a stale-while-revalidate cache in front of a bulk fetch

A shallow embedding of `halfcache.go` and the properties of its record codec,
freshness classification, lookup planning and result merging.

Conventions of the embedding

* a byte is a `Fin 256`, a `[]byte` a list of bytes (a nil slice is the empty list);
* a `map[string][]byte` is a `Finmap`: finitely many distinct keys, no order, so
  a `range` loop over one is a fold that is independent of the order of the
  entries (`rangeMap`);
* an `int64` is an `Int`; conversions to and from `uint64` are explicit;
* a `time.Time` is the number of nanoseconds since the Unix epoch, a
  `time.Duration` a number of nanoseconds;
* a Go `error` is a message; `Except` carries the `(value, nil)` / `(nil, err)`
  convention of the codec.
-/

namespace Halfcache

/-! ## Bytes, maps, time -/

abbrev Byte := Fin 256

abbrev Bytes := List Byte

/-- The Go type `map[string][]byte`; a nil map reads like the empty map. -/
abbrev GoMap := Finmap (fun _ : String => Bytes)

abbrev GoError := String

/-- A `time.Time`: nanoseconds since the Unix epoch. -/
abbrev Time := Int

/-- A `time.Duration`: nanoseconds. -/
abbrev Duration := Int

/-- The method `Time.Unix`: whole seconds since the epoch, rounded down. -/
def Unix (t : Time) : Int := t / 1000000000

/-- The method `Time.Add`. -/
def Add (t : Time) (d : Duration) : Time := t + d

/-- The conversion `uint64(x)` of an `int64`: two's complement. -/
def uint64 (x : Int) : Nat := (x % 18446744073709551616).toNat

/-- The conversion `int64(u)` of a `uint64`. -/
def int64 (u : Nat) : Int :=
  if u % 18446744073709551616 < 9223372036854775808 then ((u % 18446744073709551616 : Nat) : Int)
  else ((u % 18446744073709551616 : Nat) : Int) - 18446744073709551616

/-- The `n` low bytes of `u`, least significant first
(`binary.LittleEndian.PutUint64` for `n = 8`). -/
def putLE : Nat → Nat → Bytes
  | 0, _ => []
  | n + 1, u => ⟨u % 256, Nat.mod_lt u (by decide)⟩ :: putLE n (u / 256)

/-- The number whose little-endian bytes are given (`binary.LittleEndian.Uint64`). -/
def getLE : Bytes → Nat
  | [] => 0
  | b :: bs => b.val + 256 * getLE bs

/-! ## The record and its codec -/

/-- The anonymous struct type of the field `entity.POD`. -/
structure POD where
  UpdateTimeStamp : Int
  FinalTimeStamp : Int
deriving DecidableEq, Repr

structure entity where
  POD : POD
  Data : Bytes
deriving DecidableEq, Repr

/-- The call `binary.Write(buf, binary.LittleEndian, &e.POD)` on a `bytes.Buffer` holding
`buf`: the two fixed-size fields are appended in declaration order. Writing a
fixed-size struct into a buffer returns no error. -/
def binaryWrite (buf : Bytes) (p : POD) : Except GoError Bytes :=
  .ok (buf ++ putLE 8 (uint64 p.UpdateTimeStamp) ++ putLE 8 (uint64 p.FinalTimeStamp))

/-- The method `(*bytes.Buffer).Write(p)`: appends; the error is always nil. The result is
the buffer and the count written. -/
def bufferWrite (buf p : Bytes) : Except GoError (Bytes × Nat) :=
  .ok (buf ++ p, p.length)

def MarshalBinary (e : entity) : Except GoError Bytes :=
  let buf : Bytes := []
  match binaryWrite buf e.POD with
  | .error err => .error ("entity.MarshalBinary: " ++ err)
  | .ok buf =>
    match bufferWrite buf e.Data with
    | .error err => .error ("entity.MarshalBinary: " ++ err)
    | .ok (buf, _) => .ok buf

/-- The call `binary.Read(buf, binary.LittleEndian, &e.POD)` on a `bytes.Reader` whose
unread bytes are `b`: `io.ReadFull` of the 16 bytes of the struct, which fails
with `io.EOF` on no input and `io.ErrUnexpectedEOF` on a short one; returns the
decoded struct and the bytes left unread. -/
def binaryRead (b : Bytes) : Except GoError (POD × Bytes) :=
  if b.length = 0 then .error "EOF"
  else if b.length < 16 then .error "unexpected EOF"
  else .ok (⟨int64 (getLE (b.take 8)), int64 (getLE ((b.drop 8).take 8))⟩, b.drop 16)

/-- The method `(*bytes.Reader).Read(p)` with unread bytes `rest`: at the end of the input
it returns `(0, io.EOF)`, whatever the length of `p`; otherwise it copies
`min(len(p), len(rest))` bytes into `p`. The result is `p` after the call, the
count, and the error. -/
def readerRead (rest p : Bytes) : Bytes × Nat × Option GoError :=
  if rest.length = 0 then (p, 0, some "EOF")
  else (rest.take (min p.length rest.length) ++ p.drop (min p.length rest.length),
        min p.length rest.length, none)

def UnmarshalBinary (b : Bytes) : Except GoError entity :=
  match binaryRead b with
  | .error err => .error ("entity.UnmarshalBinary: " ++ err)
  | .ok (pod, rest) =>
    let data : Bytes := List.replicate rest.length 0
    match readerRead rest data with
    | (data, n, err) =>
      if err ≠ none ∨ n ≠ data.length then
        .error ("entity.UnmarshalBinary: failed: " ++ err.getD "<nil>")
      else .ok ⟨pod, data⟩

/-! ## The underlying store -/

/-- What the store keeps for a key: the bytes given to `Set` and the expiry
argument given with them. -/
structure CacheEntry where
  value : Bytes
  expireSeconds : Int
deriving DecidableEq, Repr

/-- The state of the `freecache.Cache` behind a `halfCache`, as seen through
`Get` and `Set`: at most one entry per key, and the pairs that `Set` refuses
(a key or an entry too large for the cache). Eviction and expiry inside the
store happen between calls; a call sees the entries that are there. -/
structure Cache where
  entries : String → Option CacheEntry
  rejects : String → Bytes → Bool

/-- The call `cache.Get([]byte(key))`: the stored bytes, or the not-found error. -/
def Cache.Get (c : Cache) (key : String) : Except GoError Bytes :=
  match c.entries key with
  | none => .error "Entry not found"
  | some e => .ok e.value

/-- The call `cache.Set([]byte(key), value, expireSeconds)`: the store afterwards and
the error; a refused write leaves the store as it was. -/
def Cache.Set (c : Cache) (key : String) (value : Bytes) (expireSeconds : Int) :
    Cache × Option GoError :=
  if c.rejects key value then (c, some "The entry size is larger than 1/1024 of cache size")
  else ({ c with entries := fun k => if k = key then some ⟨value, expireSeconds⟩
                                     else c.entries k }, none)

/-! ## The cache orchestrator -/

structure halfCache where
  cache : Cache
  updateTTL : Duration
  finalTTL : Duration
  directMultiGet : List String → GoMap × Option GoError

/-- The method `extractData`; `t` is the value of `time.Now()` it reads. The
result is `(value, needUpdate, valid)`. -/
def halfCache.extractData (_hc : halfCache) (t : Time) (entityBytes : Bytes) :
    Bytes × Bool × Bool :=
  match UnmarshalBinary entityBytes with
  | .error _ => ([], false, false)
  | .ok entity =>
    let now := Unix t
    let needUpdate := decide (now > entity.POD.UpdateTimeStamp)
    let valid := !decide (now > entity.POD.FinalTimeStamp)
    (entity.Data, needUpdate, valid)

/-- One iteration of the loop of `tryGetFromCache` on the loop state
`(ret, directKeys, needBackFill)`. -/
def halfCache.tryGetFromCacheStep (hc : halfCache) (t : Time)
    (st : GoMap × List String × Bool) (key : String) : GoMap × List String × Bool :=
  match hc.cache.Get key with
  | .error _ => (st.1, st.2.1 ++ [key], true)
  | .ok entityBytes =>
    match hc.extractData t entityBytes with
    | (value, needUpdate, valid) =>
      let directKeys := if needUpdate || !valid then st.2.1 ++ [key] else st.2.1
      if !valid then (st.1, directKeys, true)
      else (st.1.insert key value, directKeys, st.2.2)

/-- The method `tryGetFromCache`: `(ret, directKeys, needBackFill)`. The clock
is read at `t` for every key of the call. -/
def halfCache.tryGetFromCache (hc : halfCache) (t : Time) (keys : List String) :
    GoMap × List String × Bool :=
  keys.foldl (hc.tryGetFromCacheStep t) (∅, [], false)

/-- A loop `for key, value := range m` with loop state `σ`. Go visits the
entries in an unspecified order; the loop is given with the proof that bodies
run for two different keys commute, so its result is the same in any order. -/
def rangeMap {σ : Type} (m : GoMap) (body : σ → String → Bytes → σ)
    (H : ∀ s k₁ v₁ k₂ v₂, k₁ ≠ k₂ → body (body s k₁ v₁) k₂ v₂ = body (body s k₂ v₂) k₁ v₁)
    (init : σ) : σ :=
  m.liftOn (fun al => al.entries.foldl (fun s e => body s e.1 e.2) init) (by
    intro a b hab
    refine List.Perm.foldl_eq' hab ?_ init
    intro x hx y hy z
    by_cases hxy : x.1 = y.1
    · have := a.nodupKeys.eq_of_fst_eq hx hy hxy
      subst this
      rfl
    · exact H z x.1 x.2 y.1 y.2 hxy)

/-- The body of the loop of `updateCache`, on the store as loop state; `now`
is the value of `time.Now()` read before the loop. -/
def halfCache.updateCacheBody (hc : halfCache) (now : Time) (c : Cache) (key : String)
    (value : Bytes) : Cache :=
  let entity : entity :=
    { Data := value
      POD := { UpdateTimeStamp := Unix (Add now hc.updateTTL)
               FinalTimeStamp := Unix (Add now hc.finalTTL) } }
  match MarshalBinary entity with
  | .error _ => c
  | .ok entityBytes =>
    match c.Set key entityBytes hc.finalTTL with
    | (c, some _) => c
    | (c, none) => c

/-- The method `updateCache` on the store `hc.cache`; `now` is the value of
`time.Now()` it reads. The result is the store afterwards. -/
def halfCache.updateCache (hc : halfCache) (now : Time) (directRet : GoMap) : Cache :=
  rangeMap directRet (hc.updateCacheBody now) (by
    intro s k₁ v₁ k₂ v₂ h
    have h' : ¬ k₂ = k₁ := fun e => h e.symm
    simp only [halfCache.updateCacheBody, MarshalBinary, binaryWrite, bufferWrite, Cache.Set]
    by_cases h1 : s.rejects k₁ (([] : Bytes) ++ putLE 8 (uint64 (Unix (Add now hc.updateTTL)))
        ++ putLE 8 (uint64 (Unix (Add now hc.finalTTL))) ++ v₁)
    · by_cases h2 : s.rejects k₂ (([] : Bytes) ++ putLE 8 (uint64 (Unix (Add now hc.updateTTL)))
          ++ putLE 8 (uint64 (Unix (Add now hc.finalTTL))) ++ v₂)
      · simp only [h1, h2, if_true]
      · simp only [h1, h2, if_true, if_false, Bool.false_eq_true]
    · by_cases h2 : s.rejects k₂ (([] : Bytes) ++ putLE 8 (uint64 (Unix (Add now hc.updateTTL)))
          ++ putLE 8 (uint64 (Unix (Add now hc.finalTTL))) ++ v₂)
      · simp only [h1, h2, if_true, if_false, Bool.false_eq_true]
      · simp only [h1, h2, if_false, Bool.false_eq_true]
        congr 1
        funext k
        by_cases hk1 : k = k₁ <;> by_cases hk2 : k = k₂ <;> simp [hk1, hk2, h, h']) hc.cache

/-- The function `backFillResult`; the result is the map `ret` after the call. -/
def backFillResult (ret directRet : GoMap) : GoMap :=
  rangeMap directRet (fun ret key value => ret.insert key value) (by
    intro s k₁ v₁ k₂ v₂ h
    exact Finmap.insert_insert_of_ne s h) ret

/-- What a call of `MultiGet` does: the returned map (`none` for nil) and
error, the arguments of the calls of `directMultiGet` in order, whether the
caller waited for the goroutine (`wg.Wait()`), and the store once the goroutine
has finished. -/
structure MultiGetResult where
  ret : Option GoMap
  err : Option GoError
  calls : List (List String)
  waited : Bool
  cache : Cache

/-- The method `MultiGet`. The lookup reads the clock at `now`; the goroutine
reaches `updateCache` at `later`. -/
def halfCache.MultiGet (hc : halfCache) (now later : Time) (keys : List String) :
    MultiGetResult :=
  match hc.tryGetFromCache now keys with
  | (ret, directKeys, needBackFill) =>
    if directKeys.length = 0 then
      { ret := some ret, err := none, calls := [], waited := false, cache := hc.cache }
    else
      match hc.directMultiGet directKeys with
      | (directRet, directErr) =>
        let cache := if directErr ≠ none then hc.cache else hc.updateCache later directRet
        if needBackFill then
          if directErr ≠ none then
            { ret := none
              err := some ("halfCache: failed to get directly: " ++ directErr.getD "")
              calls := [directKeys], waited := true, cache := cache }
          else
            { ret := some (backFillResult ret directRet), err := none
              calls := [directKeys], waited := true, cache := cache }
        else
          { ret := some ret, err := none, calls := [directKeys], waited := false
            cache := cache }

/-! ## The classification of the specification -/

inductive Freshness where
  | ABSENT
  | EXPIRED
  | STALE
  | FRESH
deriving DecidableEq, Repr

/-- The classification of a store lookup in the words of the specification:
absent when there is no entry or it does not decode, expired when
`now > expireAt`, stale when `refreshAt < now <= expireAt`, fresh when
`now <= refreshAt`; `now` is in Unix seconds. -/
def classify (raw : Option Bytes) (now : Int) : Freshness :=
  match raw with
  | none => .ABSENT
  | some b =>
    match UnmarshalBinary b with
    | .error _ => .ABSENT
    | .ok r =>
      if now > r.POD.FinalTimeStamp then .EXPIRED
      else if now > r.POD.UpdateTimeStamp then .STALE
      else .FRESH

/-- The class of a key for a call that reads the clock at `t`. -/
def halfCache.classOf (hc : halfCache) (t : Time) (key : String) : Freshness :=
  classify ((hc.cache.entries key).map (fun e => e.value)) (Unix t)

/-- The value an `int64` can hold. -/
def isInt64 (x : Int) : Prop := -9223372036854775808 ≤ x ∧ x < 9223372036854775808

instance (x : Int) : Decidable (isInt64 x) := by unfold isInt64; infer_instance

/-- The bytes `updateCache` stores for a value: what `MarshalBinary` returns. -/
def recordBytes (refreshAt expireAt : Int) (value : Bytes) : Bytes :=
  putLE 8 (uint64 refreshAt) ++ putLE 8 (uint64 expireAt) ++ value

/-- The value the entry of a key decodes to, when there is an entry and it
decodes. -/
def halfCache.cachedValue (hc : halfCache) (key : String) : Option Bytes :=
  match hc.cache.entries key with
  | none => none
  | some e =>
    match UnmarshalBinary e.value with
    | .error _ => none
    | .ok r => some r.Data

/-! ## The scenario of the repository's test -/

deriving instance DecidableEq for Except

/-- A store with no entry that accepts every write. -/
def emptyCache : Cache :=
  { entries := fun _ => none, rejects := fun _ _ => false }

/-- The table of the test's collaborator: "aaa", "bbb" and "ccc" under the
keys a, b and c. -/
def testValues : GoMap :=
  Finmap.insert "a" [97, 97, 97] (Finmap.insert "b" [98, 98, 98]
    (Finmap.insert "c" [99, 99, 99] ∅))

/-- The collaborator of `TestHalfCache`: the entries of the table for the keys
asked, no error. -/
def testDirectMultiGet (keys : List String) : GoMap × Option GoError :=
  (keys.foldl (fun (ret : GoMap) key =>
      match testValues.lookup key with
      | some value => ret.insert key value
      | none => ret) ∅, none)

/-- A collaborator that fails. -/
def failingDirectMultiGet (_keys : List String) : GoMap × Option GoError :=
  (∅, some "backend down")

/-- A collaborator whose data has changed: it returns one byte 120 for every
key asked. -/
def changedDirectMultiGet (keys : List String) : GoMap × Option GoError :=
  (keys.foldl (fun (ret : GoMap) key => ret.insert key [120]) ∅, none)

/-- The cache of `TestHalfCache`: `NewHalfCache(100, 1*time.Second, 5*time.Second, directMultiGet)`. -/
def testHalfCache : halfCache :=
  { cache := emptyCache, updateTTL := 1000000000, finalTTL := 5000000000
    directMultiGet := testDirectMultiGet }

/-- The store after the test's first call `MultiGet("a", "c")`, made at instant 0
with the fetch done 100 ms later. -/
def filledCache : Cache := (testHalfCache.MultiGet 0 100000000 ["a", "c"]).cache

/-- The test's cache after its first call, with a collaborator of choice for
the next call. -/
def filledHalfCache (d : List String → GoMap × Option GoError) : halfCache :=
  { testHalfCache with cache := filledCache, directMultiGet := d }

/-- A collaborator that returns the empty value for every key asked. -/
def emptyValueDirectMultiGet (keys : List String) : GoMap × Option GoError :=
  (keys.foldl (fun (ret : GoMap) key => ret.insert key []) ∅, none)

/-- A collaborator that returns the value 120 for a, whatever it is asked. -/
def unaskedDirectMultiGet (_keys : List String) : GoMap × Option GoError :=
  (Finmap.insert "a" [120] ∅, none)

/-- The test's cache with the two durations exchanged: `updateTTL` 5 s,
`finalTTL` 1 s. -/
def misconfiguredHalfCache : halfCache :=
  { testHalfCache with updateTTL := 5000000000, finalTTL := 1000000000 }

/-- The store with no entry for the key, every other entry as it is. -/
def Cache.without (c : Cache) (key : String) : Cache :=
  { c with entries := fun k => if k = key then none else c.entries k }

/-- The store after the test's first call, with the entry of c cut down to
three bytes. -/
def truncatedCache : Cache :=
  { filledCache with
    entries := fun k => if k = "c" then some ⟨[1, 2, 3], 5000000000⟩ else filledCache.entries k }

/-- The test's cache over the store with the cut entry. -/
def truncatedHalfCache (d : List String → GoMap × Option GoError) : halfCache :=
  { testHalfCache with cache := truncatedCache, directMultiGet := d }

/-! ## Codec lemmas -/

theorem putLE_length (n u : Nat) : (putLE n u).length = n := by
  induction n generalizing u with
  | zero => rfl
  | succ n ih => simp [putLE, ih]

theorem getLE_putLE (n u : Nat) : getLE (putLE n u) = u % 256 ^ n := by
  induction n generalizing u with
  | zero => simp [putLE, getLE, Nat.mod_one]
  | succ n ih =>
    simp only [putLE, getLE, ih]
    rw [pow_succ, mul_comm (256 ^ n) 256, Nat.mod_mul]

theorem putLE_getElem? (n u i : Nat) (h : i < n) :
    (putLE n u)[i]? = some ⟨u / 256 ^ i % 256, Nat.mod_lt _ (by decide)⟩ := by
  induction n generalizing u i with
  | zero => omega
  | succ n ih =>
    cases i with
    | zero => simp [putLE]
    | succ i =>
      simp only [putLE, List.getElem?_cons_succ]
      rw [ih (u / 256) i (by omega)]
      simp [pow_succ, Nat.div_div_eq_div_mul, mul_comm]

theorem uint64_lt (x : Int) : uint64 x < 18446744073709551616 := by
  unfold uint64
  have h := Int.emod_lt_of_pos x (by decide : (0 : Int) < 18446744073709551616)
  have h0 := Int.emod_nonneg x (by decide : (18446744073709551616 : Int) ≠ 0)
  omega

theorem int64_uint64 (x : Int) (hlo : -9223372036854775808 ≤ x)
    (hhi : x < 9223372036854775808) : int64 (uint64 x) = x := by
  have hlt := uint64_lt x
  unfold int64
  rw [Nat.mod_eq_of_lt hlt]
  unfold uint64
  have h0 := Int.emod_nonneg x (by decide : (18446744073709551616 : Int) ≠ 0)
  split <;> omega

theorem MarshalBinary_eq (e : entity) :
    MarshalBinary e = .ok (putLE 8 (uint64 e.POD.UpdateTimeStamp)
      ++ putLE 8 (uint64 e.POD.FinalTimeStamp) ++ e.Data) := by
  simp [MarshalBinary, binaryWrite, bufferWrite]

theorem binaryRead_of_lt (b : Bytes) (h : b.length < 16) :
    ∃ err, binaryRead b = .error err := by
  unfold binaryRead
  by_cases h0 : b.length = 0
  · rw [if_pos h0]
    exact ⟨_, rfl⟩
  · rw [if_neg h0, if_pos h]
    exact ⟨_, rfl⟩

theorem readerRead_full (rest : Bytes) (h : rest.length ≠ 0) :
    readerRead rest (List.replicate rest.length 0) = (rest, rest.length, none) := by
  simp [readerRead, h]

theorem readerRead_end (rest p : Bytes) (h : rest.length = 0) :
    readerRead rest p = (p, 0, some "EOF") := by
  simp [readerRead, h]

theorem binaryRead_of_ge (b : Bytes) (h : 16 ≤ b.length) :
    binaryRead b = .ok (⟨int64 (getLE (b.take 8)), int64 (getLE ((b.drop 8).take 8))⟩,
      b.drop 16) := by
  unfold binaryRead
  have h0 : ¬ b.length = 0 := by omega
  have h1 : ¬ b.length < 16 := by omega
  simp [h0, h1]

/-- Decoding succeeds exactly on inputs longer than the header. -/
theorem UnmarshalBinary_of_gt (b : Bytes) (h : 16 < b.length) :
    UnmarshalBinary b = .ok ⟨⟨int64 (getLE (b.take 8)), int64 (getLE ((b.drop 8).take 8))⟩,
      b.drop 16⟩ := by
  unfold UnmarshalBinary
  rw [binaryRead_of_ge b (by omega)]
  have hlen : (b.drop 16).length ≠ 0 := by simp; omega
  simp only [readerRead_full _ hlen]
  simp

theorem UnmarshalBinary_of_le (b : Bytes) (h : b.length ≤ 16) :
    ∃ err, UnmarshalBinary b = .error err := by
  unfold UnmarshalBinary
  by_cases h16 : b.length < 16
  · obtain ⟨err, he⟩ := binaryRead_of_lt b h16
    exact ⟨_, by rw [he]⟩
  · rw [binaryRead_of_ge b (by omega)]
    have hlen : (b.drop 16).length = 0 := by simp; omega
    simp only [readerRead_end _ _ hlen]
    simp

theorem UnmarshalBinary_ok_iff (b : Bytes) (e : entity) :
    UnmarshalBinary b = .ok e ↔
      16 < b.length ∧
        e = ⟨⟨int64 (getLE (b.take 8)), int64 (getLE ((b.drop 8).take 8))⟩, b.drop 16⟩ := by
  by_cases h : 16 < b.length
  · rw [UnmarshalBinary_of_gt b h]
    constructor
    · intro he
      exact ⟨h, (Except.ok.inj he).symm⟩
    · rintro ⟨_, rfl⟩
      rfl
  · obtain ⟨err, he⟩ := UnmarshalBinary_of_le b (by omega)
    rw [he]
    constructor
    · intro h'
      cases h'
    · rintro ⟨h', _⟩
      exact absurd h' h

theorem UnmarshalBinary_recordBytes (u f : Int) (d : Bytes) (hu : isInt64 u) (hf : isInt64 f)
    (hd : d ≠ []) : UnmarshalBinary (recordBytes u f d) = .ok ⟨⟨u, f⟩, d⟩ := by
  have hlen : 0 < d.length := List.length_pos.mpr hd
  have h8u := putLE_length 8 (uint64 u)
  have h8f := putLE_length 8 (uint64 f)
  have hp : (256 : Nat) ^ 8 = 18446744073709551616 := by norm_num
  rw [UnmarshalBinary_of_gt _ (by simp [recordBytes, h8u, h8f]; omega)]
  have e1 : (recordBytes u f d).take 8 = putLE 8 (uint64 u) := by
    unfold recordBytes
    rw [List.append_assoc, List.take_left' h8u]
  have e2 : ((recordBytes u f d).drop 8).take 8 = putLE 8 (uint64 f) := by
    unfold recordBytes
    rw [List.append_assoc, List.drop_left' h8u, List.take_left' h8f]
  have e3 : (recordBytes u f d).drop 16 = d := by
    unfold recordBytes
    rw [List.drop_left' (by simp [h8u, h8f])]
  rw [e1, e2, e3, getLE_putLE, getLE_putLE, hp, Nat.mod_eq_of_lt (uint64_lt u),
    Nat.mod_eq_of_lt (uint64_lt f), int64_uint64 u hu.1 hu.2, int64_uint64 f hf.1 hf.2]

theorem UnmarshalBinary_recordBytes_nil (u f : Int) :
    ∃ err, UnmarshalBinary (recordBytes u f []) = .error err :=
  UnmarshalBinary_of_le _ (by simp [recordBytes, putLE_length])

/-! ## Store lemmas -/

theorem Cache.Set_comm (c : Cache) (k₁ k₂ : String) (b₁ b₂ : Bytes) (x₁ x₂ : Int)
    (h : k₁ ≠ k₂) :
    ((c.Set k₁ b₁ x₁).1.Set k₂ b₂ x₂).1 = ((c.Set k₂ b₂ x₂).1.Set k₁ b₁ x₁).1 := by
  unfold Cache.Set
  by_cases h1 : c.rejects k₁ b₁ <;> by_cases h2 : c.rejects k₂ b₂ <;> simp [h1, h2]
  funext k
  by_cases hk1 : k = k₁ <;> by_cases hk2 : k = k₂ <;> simp [hk1, hk2]
  · exact absurd (hk1.symm.trans hk2) h
  · subst hk1; simp [h]
  · subst hk2; simp [Ne.symm h]

theorem halfCache.updateCacheBody_eq (hc : halfCache) (now : Time) (c : Cache) (key : String)
    (value : Bytes) :
    hc.updateCacheBody now c key value =
      (c.Set key (putLE 8 (uint64 (Unix (Add now hc.updateTTL)))
        ++ putLE 8 (uint64 (Unix (Add now hc.finalTTL))) ++ value) hc.finalTTL).1 := by
  unfold halfCache.updateCacheBody
  simp only [MarshalBinary, binaryWrite, bufferWrite, List.nil_append]
  split <;> simp_all

theorem rangeMap_toFinmap {σ : Type} (al : AList (fun _ : String => Bytes))
    (body : σ → String → Bytes → σ) (H) (init : σ) :
    rangeMap (AList.toFinmap al) body H init
      = al.entries.foldl (fun s e => body s e.1 e.2) init := rfl

theorem foldl_updateCacheBody (hc : halfCache) (now : Time)
    (l : List (Sigma (fun _ : String => Bytes))) (hnd : l.NodupKeys) (c : Cache) :
    (l.foldl (fun s e => hc.updateCacheBody now s e.1 e.2) c).rejects = c.rejects ∧
    ∀ k, (l.foldl (fun s e => hc.updateCacheBody now s e.1 e.2) c).entries k =
      match l.dlookup k with
      | some v =>
        if c.rejects k (recordBytes (Unix (Add now hc.updateTTL)) (Unix (Add now hc.finalTTL)) v)
        then c.entries k
        else some ⟨recordBytes (Unix (Add now hc.updateTTL)) (Unix (Add now hc.finalTTL)) v,
          hc.finalTTL⟩
      | none => c.entries k := by
  induction l generalizing c with
  | nil => exact ⟨rfl, fun k => rfl⟩
  | cons e l ih =>
    obtain ⟨a, b⟩ := e
    rw [List.nodupKeys_cons] at hnd
    obtain ⟨ha, hl⟩ := hnd
    have hnone : l.dlookup a = none := List.dlookup_eq_none.mpr ha
    obtain ⟨ihr, ihe⟩ := ih hl (hc.updateCacheBody now c a b)
    simp only [List.foldl_cons]
    have hbody := hc.updateCacheBody_eq now c a b
    have hrej : (hc.updateCacheBody now c a b).rejects = c.rejects := by
      rw [hbody]
      unfold Cache.Set
      split <;> rfl
    refine ⟨ihr.trans hrej, fun k => ?_⟩
    rw [ihe k, hrej]
    by_cases hk : a = k
    · subst hk
      rw [hnone, List.dlookup_cons_eq]
      simp only [hbody, Cache.Set, recordBytes]
      split <;> simp_all
    · rw [List.dlookup_cons_ne _ _ (fun h => hk h.symm)]
      have hent : (hc.updateCacheBody now c a b).entries k = c.entries k := by
        rw [hbody]
        unfold Cache.Set
        split
        · rfl
        · have hka : ¬ k = a := fun h => hk h.symm
          simp [hka]
      rw [hent]

/-- The store after `updateCache`, key by key. -/
theorem halfCache.updateCache_entries (hc : halfCache) (now : Time) (m : GoMap) (k : String) :
    (hc.updateCache now m).entries k =
      match m.lookup k with
      | some v =>
        if hc.cache.rejects k
          (recordBytes (Unix (Add now hc.updateTTL)) (Unix (Add now hc.finalTTL)) v)
        then hc.cache.entries k
        else some ⟨recordBytes (Unix (Add now hc.updateTTL)) (Unix (Add now hc.finalTTL)) v,
          hc.finalTTL⟩
      | none => hc.cache.entries k := by
  induction m using Finmap.induction_on with
  | H al =>
    rw [Finmap.lookup_toFinmap]
    exact (foldl_updateCacheBody hc now al.entries al.nodupKeys hc.cache).2 k

theorem halfCache.updateCache_rejects (hc : halfCache) (now : Time) (m : GoMap) :
    (hc.updateCache now m).rejects = hc.cache.rejects := by
  induction m using Finmap.induction_on with
  | H al => exact (foldl_updateCacheBody hc now al.entries al.nodupKeys hc.cache).1

/-! ## Merge lemmas -/

theorem foldl_insert_lookup (l : List (Sigma (fun _ : String => Bytes))) (hnd : l.NodupKeys)
    (ret : GoMap) (k : String) :
    (l.foldl (fun (s : GoMap) e => s.insert e.1 e.2) ret).lookup k =
      match l.dlookup k with
      | some v => some v
      | none => ret.lookup k := by
  induction l generalizing ret with
  | nil => rfl
  | cons e l ih =>
    obtain ⟨a, b⟩ := e
    rw [List.nodupKeys_cons] at hnd
    obtain ⟨ha, hl⟩ := hnd
    have hnone : l.dlookup a = none := List.dlookup_eq_none.mpr ha
    simp only [List.foldl_cons]
    rw [ih hl]
    by_cases hk : a = k
    · subst hk
      rw [hnone, List.dlookup_cons_eq]
      simp [Finmap.lookup_insert]
    · rw [List.dlookup_cons_ne _ _ (fun h => hk h.symm)]
      rw [Finmap.lookup_insert_of_ne _ (fun h => hk h.symm)]

/-- The merged map, key by key: the fetched value where there is one, the
value already there otherwise. -/
theorem backFillResult_lookup (ret directRet : GoMap) (k : String) :
    (backFillResult ret directRet).lookup k =
      match directRet.lookup k with
      | some v => some v
      | none => ret.lookup k := by
  induction directRet using Finmap.induction_on with
  | H al =>
    rw [Finmap.lookup_toFinmap]
    exact foldl_insert_lookup al.entries al.nodupKeys ret k

theorem backFillResult_eq_union (ret directRet : GoMap) :
    backFillResult ret directRet = directRet ∪ ret := by
  apply Finmap.ext_lookup
  intro k
  rw [backFillResult_lookup]
  cases h : directRet.lookup k with
  | none => rw [Finmap.lookup_union_right (Finmap.lookup_eq_none.mp h)]
  | some v =>
    rw [Finmap.lookup_union_left (Finmap.mem_of_lookup_eq_some h), h]

theorem backFillResult_empty (directRet : GoMap) : backFillResult ∅ directRet = directRet := by
  rw [backFillResult_eq_union, Finmap.union_empty]

/-! ## Planner lemmas -/

/-- One iteration of the planner's loop, by the class of the key. -/
theorem halfCache.tryGetFromCacheStep_eq (hc : halfCache) (t : Time)
    (st : GoMap × List String × Bool) (key : String) :
    hc.tryGetFromCacheStep t st key =
      match hc.classOf t key with
      | .FRESH => (st.1.insert key ((hc.cachedValue key).getD []), st.2.1, st.2.2)
      | .STALE => (st.1.insert key ((hc.cachedValue key).getD []), st.2.1 ++ [key], st.2.2)
      | .EXPIRED => (st.1, st.2.1 ++ [key], true)
      | .ABSENT => (st.1, st.2.1 ++ [key], true) := by
  unfold halfCache.tryGetFromCacheStep halfCache.classOf classify halfCache.cachedValue
    Cache.Get halfCache.extractData
  cases hE : hc.cache.entries key with
  | none => simp
  | some e =>
    cases hU : UnmarshalBinary e.value with
    | error err => simp [hU]
    | ok r =>
      by_cases h1 : Unix t > r.POD.FinalTimeStamp <;>
        by_cases h2 : Unix t > r.POD.UpdateTimeStamp <;> simp [hU, h1, h2]

theorem halfCache.cachedValue_of_served (hc : halfCache) (t : Time) (key : String)
    (h : hc.classOf t key = .FRESH ∨ hc.classOf t key = .STALE) :
    ∃ v, hc.cachedValue key = some v := by
  unfold halfCache.classOf classify at h
  unfold halfCache.cachedValue
  cases hE : hc.cache.entries key with
  | none => simp [hE] at h
  | some e =>
    cases hU : UnmarshalBinary e.value with
    | error err => simp [hE, hU] at h
    | ok r => exact ⟨r.Data, by simp [hU]⟩

theorem halfCache.foldl_step_directKeys (hc : halfCache) (t : Time) (keys : List String)
    (st : GoMap × List String × Bool) :
    (keys.foldl (hc.tryGetFromCacheStep t) st).2.1 =
      st.2.1 ++ keys.filter (fun k => decide (hc.classOf t k ≠ .FRESH)) := by
  induction keys generalizing st with
  | nil => simp
  | cons k ks ih =>
    rw [List.foldl_cons, ih, halfCache.tryGetFromCacheStep_eq]
    cases hcl : hc.classOf t k <;> simp [List.filter_cons, hcl]

theorem halfCache.foldl_step_needBackFill (hc : halfCache) (t : Time) (keys : List String)
    (st : GoMap × List String × Bool) :
    (keys.foldl (hc.tryGetFromCacheStep t) st).2.2 =
      (st.2.2 || keys.any (fun k =>
        decide (hc.classOf t k = .ABSENT ∨ hc.classOf t k = .EXPIRED))) := by
  induction keys generalizing st with
  | nil => simp
  | cons k ks ih =>
    rw [List.foldl_cons, ih, halfCache.tryGetFromCacheStep_eq]
    cases hcl : hc.classOf t k <;> simp [hcl]

theorem halfCache.foldl_step_ret (hc : halfCache) (t : Time) (keys : List String)
    (st : GoMap × List String × Bool) (k : String) :
    (keys.foldl (hc.tryGetFromCacheStep t) st).1.lookup k =
      if k ∈ keys ∧ (hc.classOf t k = .FRESH ∨ hc.classOf t k = .STALE)
      then hc.cachedValue k else st.1.lookup k := by
  induction keys generalizing st with
  | nil => simp
  | cons a ks ih =>
    rw [List.foldl_cons, ih, halfCache.tryGetFromCacheStep_eq]
    by_cases hks : k ∈ ks ∧ (hc.classOf t k = .FRESH ∨ hc.classOf t k = .STALE)
    · have hmem : k ∈ a :: ks ∧ (hc.classOf t k = .FRESH ∨ hc.classOf t k = .STALE) :=
        ⟨List.mem_cons_of_mem _ hks.1, hks.2⟩
      rw [if_pos hks, if_pos hmem]
    · rw [if_neg hks]
      by_cases hka : k = a
      · subst hka
        by_cases hs : hc.classOf t k = .FRESH ∨ hc.classOf t k = .STALE
        · obtain ⟨v, hv⟩ := hc.cachedValue_of_served t k hs
          rw [if_pos ⟨List.mem_cons_self _ _, hs⟩]
          rcases hs with hs | hs <;> simp [hs, hv, Finmap.lookup_insert]
        · have hn : ¬ (k ∈ k :: ks ∧ (hc.classOf t k = .FRESH ∨ hc.classOf t k = .STALE)) :=
            fun h => hs h.2
          rw [if_neg hn]
          cases hcl : hc.classOf t k <;> simp_all
      · have hn : ¬ (k ∈ a :: ks ∧ (hc.classOf t k = .FRESH ∨ hc.classOf t k = .STALE)) := by
          rintro ⟨hm, hs⟩
          rcases List.mem_cons.mp hm with h | h
          · exact hka h
          · exact hks ⟨h, hs⟩
        rw [if_neg hn]
        cases hcl : hc.classOf t a <;> simp [Finmap.lookup_insert_of_ne _ hka]

/-- The keys the planner hands to the fetch: the requested keys that are not
fresh, in request order. -/
theorem halfCache.tryGetFromCache_directKeys (hc : halfCache) (t : Time) (keys : List String) :
    (hc.tryGetFromCache t keys).2.1 = keys.filter (fun k => decide (hc.classOf t k ≠ .FRESH)) := by
  unfold halfCache.tryGetFromCache
  rw [halfCache.foldl_step_directKeys]
  rfl

/-- The planner's blocking flag: some requested key is absent or expired. -/
theorem halfCache.tryGetFromCache_needBackFill (hc : halfCache) (t : Time) (keys : List String) :
    (hc.tryGetFromCache t keys).2.2 =
      keys.any (fun k => decide (hc.classOf t k = .ABSENT ∨ hc.classOf t k = .EXPIRED)) := by
  unfold halfCache.tryGetFromCache
  rw [halfCache.foldl_step_needBackFill]
  rfl

/-- The map the planner serves from the cache, key by key. -/
theorem halfCache.tryGetFromCache_ret (hc : halfCache) (t : Time) (keys : List String)
    (k : String) :
    (hc.tryGetFromCache t keys).1.lookup k =
      if k ∈ keys ∧ (hc.classOf t k = .FRESH ∨ hc.classOf t k = .STALE)
      then hc.cachedValue k else none := by
  unfold halfCache.tryGetFromCache
  rw [halfCache.foldl_step_ret]
  rfl

theorem halfCache.needBackFill_iff (hc : halfCache) (t : Time) (keys : List String) :
    (hc.tryGetFromCache t keys).2.2 = true ↔
      ∃ k ∈ keys, hc.classOf t k = .ABSENT ∨ hc.classOf t k = .EXPIRED := by
  rw [halfCache.tryGetFromCache_needBackFill, List.any_eq_true]
  constructor
  · rintro ⟨k, hk, h⟩
    exact ⟨k, hk, of_decide_eq_true h⟩
  · rintro ⟨k, hk, h⟩
    exact ⟨k, hk, decide_eq_true h⟩

theorem halfCache.mem_directKeys_iff (hc : halfCache) (t : Time) (keys : List String)
    (k : String) :
    k ∈ (hc.tryGetFromCache t keys).2.1 ↔ k ∈ keys ∧ hc.classOf t k ≠ .FRESH := by
  rw [halfCache.tryGetFromCache_directKeys, List.mem_filter]
  simp

/-- A call that must block has something to fetch. -/
theorem halfCache.directKeys_ne_nil_of_needBackFill (hc : halfCache) (t : Time)
    (keys : List String) (h : (hc.tryGetFromCache t keys).2.2 = true) :
    (hc.tryGetFromCache t keys).2.1 ≠ [] := by
  obtain ⟨k, hk, hcl⟩ := (hc.needBackFill_iff t keys).mp h
  have hmem : k ∈ (hc.tryGetFromCache t keys).2.1 := by
    rw [halfCache.mem_directKeys_iff]
    refine ⟨hk, ?_⟩
    rcases hcl with h | h <;> rw [h] <;> decide
  exact List.ne_nil_of_mem hmem

/-! ## The four ways through `MultiGet` -/

theorem halfCache.MultiGet_nothing_to_fetch (hc : halfCache) (now later : Time)
    (keys : List String) (h : (hc.tryGetFromCache now keys).2.1 = []) :
    hc.MultiGet now later keys =
      { ret := some (hc.tryGetFromCache now keys).1, err := none, calls := [], waited := false
        cache := hc.cache } := by
  unfold halfCache.MultiGet
  generalize hc.tryGetFromCache now keys = p at h
  obtain ⟨ret, dk, nb⟩ := p
  simp only at h
  simp [h]

theorem halfCache.MultiGet_detached (hc : halfCache) (now later : Time)
    (keys : List String) (h : (hc.tryGetFromCache now keys).2.1 ≠ [])
    (hb : (hc.tryGetFromCache now keys).2.2 = false) :
    hc.MultiGet now later keys =
      { ret := some (hc.tryGetFromCache now keys).1, err := none
        calls := [(hc.tryGetFromCache now keys).2.1], waited := false
        cache := if (hc.directMultiGet (hc.tryGetFromCache now keys).2.1).2 ≠ none then hc.cache
          else hc.updateCache later (hc.directMultiGet (hc.tryGetFromCache now keys).2.1).1 } := by
  unfold halfCache.MultiGet
  generalize hc.tryGetFromCache now keys = p at h hb
  obtain ⟨ret, dk, nb⟩ := p
  simp only at h hb
  simp [h, hb]

theorem halfCache.MultiGet_blocking_ok (hc : halfCache) (now later : Time)
    (keys : List String) (hb : (hc.tryGetFromCache now keys).2.2 = true)
    (hok : (hc.directMultiGet (hc.tryGetFromCache now keys).2.1).2 = none) :
    hc.MultiGet now later keys =
      { ret := some (backFillResult (hc.tryGetFromCache now keys).1
          (hc.directMultiGet (hc.tryGetFromCache now keys).2.1).1)
        err := none, calls := [(hc.tryGetFromCache now keys).2.1], waited := true
        cache := hc.updateCache later (hc.directMultiGet (hc.tryGetFromCache now keys).2.1).1 } := by
  have h := hc.directKeys_ne_nil_of_needBackFill now keys hb
  unfold halfCache.MultiGet
  generalize hc.tryGetFromCache now keys = p at h hb hok
  obtain ⟨ret, dk, nb⟩ := p
  simp only at h hb hok
  simp [h, hb, hok]

theorem halfCache.MultiGet_blocking_error (hc : halfCache) (now later : Time)
    (keys : List String) (hb : (hc.tryGetFromCache now keys).2.2 = true)
    (herr : (hc.directMultiGet (hc.tryGetFromCache now keys).2.1).2 ≠ none) :
    hc.MultiGet now later keys =
      { ret := none
        err := some ("halfCache: failed to get directly: "
          ++ (hc.directMultiGet (hc.tryGetFromCache now keys).2.1).2.getD "")
        calls := [(hc.tryGetFromCache now keys).2.1], waited := true, cache := hc.cache } := by
  have h := hc.directKeys_ne_nil_of_needBackFill now keys hb
  unfold halfCache.MultiGet
  generalize hc.tryGetFromCache now keys = p at h hb herr
  obtain ⟨ret, dk, nb⟩ := p
  simp only at h hb herr
  simp [h, hb, herr]

/-! ## A record written by `updateCache`, read back -/

theorem halfCache.classOf_of_record (hc : halfCache) (t : Time) (k : String)
    (u f x : Int) (v : Bytes) (hent : hc.cache.entries k = some ⟨recordBytes u f v, x⟩)
    (hu : isInt64 u) (hf : isInt64 f) (hv : v ≠ []) :
    hc.classOf t k = (if Unix t > f then .EXPIRED else if Unix t > u then .STALE else .FRESH) ∧
    hc.cachedValue k = some v := by
  unfold halfCache.classOf classify halfCache.cachedValue
  rw [hent]
  simp only [Option.map_some']
  rw [UnmarshalBinary_recordBytes u f v hu hf hv]
  exact ⟨rfl, rfl⟩

/-- The store after a call whose fetch succeeded is the store after
`updateCache` on the fetched map. -/
theorem halfCache.MultiGet_cache_of_fetch_ok (hc : halfCache) (now later : Time)
    (keys : List String) (hne : (hc.tryGetFromCache now keys).2.1 ≠ [])
    (hok : (hc.directMultiGet (hc.tryGetFromCache now keys).2.1).2 = none) :
    (hc.MultiGet now later keys).cache
      = hc.updateCache later (hc.directMultiGet (hc.tryGetFromCache now keys).2.1).1 := by
  by_cases hb : (hc.tryGetFromCache now keys).2.2 = true
  · rw [hc.MultiGet_blocking_ok now later keys hb hok]
  · have hb' : (hc.tryGetFromCache now keys).2.2 = false := by simpa using hb
    rw [hc.MultiGet_detached now later keys hne hb']
    simp [hok]

theorem halfCache.updateCache_entries_of_accepted (hc : halfCache) (t : Time) (m : GoMap)
    (k : String) (v : Bytes) (hv : m.lookup k = some v)
    (hacc : hc.cache.rejects k
      (recordBytes (Unix (Add t hc.updateTTL)) (Unix (Add t hc.finalTTL)) v) = false) :
    (hc.updateCache t m).entries k
      = some ⟨recordBytes (Unix (Add t hc.updateTTL)) (Unix (Add t hc.finalTTL)) v,
          hc.finalTTL⟩ := by
  rw [hc.updateCache_entries, hv]
  simp [hacc]

theorem Unix_mono (s t : Int) (h : s ≤ t) : Unix s ≤ Unix t := by
  unfold Unix
  omega

theorem Unix_Add_lt_of_second_elapsed (s t d : Int)
    (h : d + 1000000000 ≤ t - s) : Unix (Add s d) < Unix t := by
  unfold Unix Add
  omega

/-- The calls of the collaborator made by `MultiGet` have the planner's keys
to fetch as argument. -/
theorem halfCache.MultiGet_calls_subset (hc : halfCache) (now later : Time)
    (keys : List String) :
    ∀ ks ∈ (hc.MultiGet now later keys).calls, ks = (hc.tryGetFromCache now keys).2.1 := by
  by_cases hdk : (hc.tryGetFromCache now keys).2.1 = []
  · rw [hc.MultiGet_nothing_to_fetch now later keys hdk]
    intro ks hks
    cases hks
  · by_cases hb : (hc.tryGetFromCache now keys).2.2 = true
    · by_cases herr : (hc.directMultiGet (hc.tryGetFromCache now keys).2.1).2 = none
      · rw [hc.MultiGet_blocking_ok now later keys hb herr]
        intro ks hks
        exact List.mem_singleton.mp hks
      · rw [hc.MultiGet_blocking_error now later keys hb herr]
        intro ks hks
        exact List.mem_singleton.mp hks
    · have hb' : (hc.tryGetFromCache now keys).2.2 = false := by simpa using hb
      rw [hc.MultiGet_detached now later keys hdk hb']
      intro ks hks
      exact List.mem_singleton.mp hks

/-! ## The record codec: wire format and decoding -/

/-- C10. Wire format: `MarshalBinary` never fails and returns `16 + len(value)`
bytes; byte `i` of the first eight is byte `i` (least significant first) of
`UpdateTimeStamp` as a 64-bit two's complement integer, byte `8 + i` that of
`FinalTimeStamp`, and the bytes from offset 16 on are the value unchanged. -/
theorem C10_wire_format (e : entity) :
    ∃ out, MarshalBinary e = .ok out ∧ out.length = 16 + e.Data.length ∧
      (∀ i : Fin 8, (out[i.val]?).map Fin.val
        = some (uint64 e.POD.UpdateTimeStamp / 256 ^ i.val % 256)) ∧
      (∀ i : Fin 8, (out[8 + i.val]?).map Fin.val
        = some (uint64 e.POD.FinalTimeStamp / 256 ^ i.val % 256)) ∧
      getLE (out.take 8) = uint64 e.POD.UpdateTimeStamp ∧
      getLE ((out.drop 8).take 8) = uint64 e.POD.FinalTimeStamp ∧
      out.drop 16 = e.Data := by
  have h8u := putLE_length 8 (uint64 e.POD.UpdateTimeStamp)
  have h8f := putLE_length 8 (uint64 e.POD.FinalTimeStamp)
  have hp : (256 : Nat) ^ 8 = 18446744073709551616 := by norm_num
  refine ⟨_, MarshalBinary_eq e, ?_, ?_, ?_, ?_, ?_, ?_⟩
  · simp [h8u, h8f]
    omega
  · intro i
    rw [List.append_assoc, List.getElem?_append_left (by rw [h8u]; exact i.isLt),
      putLE_getElem? 8 _ i.val i.isLt]
    rfl
  · intro i
    rw [List.append_assoc, List.getElem?_append_right (by rw [h8u]; omega), h8u,
      List.getElem?_append_left (by rw [h8f]; omega),
      putLE_getElem? 8 _ (8 + i.val - 8) (by omega)]
    simp
  · rw [List.append_assoc, List.take_left' h8u, getLE_putLE, hp,
      Nat.mod_eq_of_lt (uint64_lt _)]
  · rw [List.append_assoc, List.drop_left' h8u, List.take_left' h8f, getLE_putLE, hp,
      Nat.mod_eq_of_lt (uint64_lt _)]
  · rw [List.drop_left' (by simp [h8u, h8f])]

/-- C2. Decoding the encoding of a record whose value is empty fails, whatever
the two timestamps: `MarshalBinary` returns the 16 header bytes, and
`UnmarshalBinary` of them returns an error, because the read of the zero
remaining bytes reports the end of the input. -/
theorem C2_empty_value_is_not_decoded (refreshAt expireAt : Int) :
    ∃ b, MarshalBinary ⟨⟨refreshAt, expireAt⟩, []⟩ = .ok b ∧ b.length = 16 ∧
      UnmarshalBinary b = .error "entity.UnmarshalBinary: failed: EOF" := by
  refine ⟨_, MarshalBinary_eq _, by simp [putLE_length], ?_⟩
  have hlen : (putLE 8 (uint64 refreshAt) ++ putLE 8 (uint64 expireAt) ++ ([] : Bytes)).length
      = 16 := by simp [putLE_length]
  unfold UnmarshalBinary
  rw [binaryRead_of_ge _ (by rw [hlen])]
  have hrest : ((putLE 8 (uint64 refreshAt) ++ putLE 8 (uint64 expireAt)
      ++ ([] : Bytes)).drop 16).length = 0 := by
    rw [List.length_drop, hlen]
  simp only [readerRead_end _ _ hrest]
  simp

/-! ## The freshness classifier -/

/-- C8. Classification: for stored bytes that decode to a record `r` with
`refreshAt <= expireAt` and a clock whose Unix time is `now`, `extractData`
returns the record's value with `(needUpdate, valid) = (false, true)` when
`now <= refreshAt`, `(true, true)` when `refreshAt < now <= expireAt`, and
`valid = false` when `now > expireAt`. -/
theorem C8_classification (hc : halfCache) (t : Time) (now : Int) (b : Bytes) (r : entity)
    (hnow : Unix t = now) (hdec : UnmarshalBinary b = .ok r)
    (hinv : r.POD.UpdateTimeStamp ≤ r.POD.FinalTimeStamp) :
    (now ≤ r.POD.UpdateTimeStamp → hc.extractData t b = (r.Data, false, true)) ∧
    (r.POD.UpdateTimeStamp < now → now ≤ r.POD.FinalTimeStamp →
      hc.extractData t b = (r.Data, true, true)) ∧
    (r.POD.FinalTimeStamp < now →
      (hc.extractData t b).1 = r.Data ∧ (hc.extractData t b).2.2 = false) := by
  subst hnow
  unfold halfCache.extractData
  rw [hdec]
  refine ⟨fun h => ?_, fun h1 h2 => ?_, fun h => ?_⟩
  · have h1 : ¬ Unix t > r.POD.UpdateTimeStamp := by omega
    have h2 : ¬ Unix t > r.POD.FinalTimeStamp := by omega
    simp [h1, h2]
  · have h2' : ¬ Unix t > r.POD.FinalTimeStamp := by omega
    simp [h1, h2']
  · simp [h]

/-- C8 at the record (refreshAt 1, expireAt 5, value "aaa") read at 2.5 s. -/
theorem C8_classification_witness :
    Unix 2500000000 = 2 ∧
    UnmarshalBinary (recordBytes 1 5 [97, 97, 97]) = .ok ⟨⟨1, 5⟩, [97, 97, 97]⟩ ∧
    ((1 : Int) < 2 → (2 : Int) ≤ 5 →
      testHalfCache.extractData 2500000000 (recordBytes 1 5 [97, 97, 97])
        = ([97, 97, 97], true, true)) :=
  ⟨by decide, by decide,
    (C8_classification testHalfCache 2500000000 2 (recordBytes 1 5 [97, 97, 97])
      ⟨⟨1, 5⟩, [97, 97, 97]⟩ (by decide) (by decide) (by decide)).2.1⟩

/-! ## The result of a call -/

/-- C3. Blocking merge: when some requested key is absent or expired and the
collaborator, called with the keys to fetch, succeeds with the map `m`, the
call returns without error the map served from the cache overridden by `m`:
every key of `m` has the value of `m`, also a stale key that was served from
the cache, every other fresh or stale requested key keeps its cached value, and
when every requested key is missing the result is exactly `m`. -/
theorem C3_blocking_merge (hc : halfCache) (now later : Time) (keys : List String) (m : GoMap)
    (hblock : ∃ k ∈ keys, hc.classOf now k = .ABSENT ∨ hc.classOf now k = .EXPIRED)
    (hfetch : hc.directMultiGet (hc.tryGetFromCache now keys).2.1 = (m, none)) :
    (hc.MultiGet now later keys).err = none ∧
    ∃ res, (hc.MultiGet now later keys).ret = some res ∧
      res = m ∪ (hc.tryGetFromCache now keys).1 ∧
      (∀ k v, m.lookup k = some v → res.lookup k = some v) ∧
      (∀ k ∈ keys, hc.classOf now k = .FRESH ∨ hc.classOf now k = .STALE → k ∉ m →
        res.lookup k = hc.cachedValue k) ∧
      ((∀ k ∈ keys, hc.classOf now k = .ABSENT ∨ hc.classOf now k = .EXPIRED) → res = m) := by
  have hb := (hc.needBackFill_iff now keys).mpr hblock
  have hok : (hc.directMultiGet (hc.tryGetFromCache now keys).2.1).2 = none := by rw [hfetch]
  rw [hc.MultiGet_blocking_ok now later keys hb hok, hfetch]
  refine ⟨rfl, _, rfl, backFillResult_eq_union _ _, ?_, ?_, ?_⟩
  · intro k v hkv
    rw [backFillResult_lookup, hkv]
  · intro k hk hcl hkm
    rw [backFillResult_lookup, Finmap.lookup_eq_none.mpr hkm]
    simp only
    rw [hc.tryGetFromCache_ret, if_pos ⟨hk, hcl⟩]
  · intro hall
    have hempty : (hc.tryGetFromCache now keys).1 = ∅ := by
      apply Finmap.ext_lookup
      intro k
      rw [hc.tryGetFromCache_ret, Finmap.lookup_empty]
      apply if_neg
      rintro ⟨hk, hcl⟩
      rcases hall k hk with h | h <;> rcases hcl with h' | h' <;> rw [h] at h' <;> cases h'
    rw [hempty, backFillResult_empty]

/-- C3 on the test's cache 2.5 s after its first call: a and c are stale, b is
absent, and the collaborator's data has changed. -/
theorem C3_blocking_merge_witness :
    (∃ k ∈ ["a", "b", "c"], (filledHalfCache changedDirectMultiGet).classOf 2500000000 k = .ABSENT
      ∨ (filledHalfCache changedDirectMultiGet).classOf 2500000000 k = .EXPIRED) ∧
    (filledHalfCache changedDirectMultiGet).classOf 2500000000 "a" = .STALE ∧
    ((filledHalfCache changedDirectMultiGet).MultiGet 2500000000 2600000000
      ["a", "b", "c"]).err = none ∧
    ∃ res, ((filledHalfCache changedDirectMultiGet).MultiGet 2500000000 2600000000
        ["a", "b", "c"]).ret = some res ∧
      res = (changedDirectMultiGet ["a", "b", "c"]).1
        ∪ ((filledHalfCache changedDirectMultiGet).tryGetFromCache 2500000000 ["a", "b", "c"]).1 :=
  have hblock : ∃ k ∈ ["a", "b", "c"],
      (filledHalfCache changedDirectMultiGet).classOf 2500000000 k = .ABSENT
      ∨ (filledHalfCache changedDirectMultiGet).classOf 2500000000 k = .EXPIRED :=
    ⟨"b", by decide, Or.inl (by decide)⟩
  have h := C3_blocking_merge (filledHalfCache changedDirectMultiGet) 2500000000 2600000000
    ["a", "b", "c"] (changedDirectMultiGet ["a", "b", "c"]).1 hblock (by rfl)
  ⟨hblock, by decide, h.1, h.2.imp (fun _ hres => ⟨hres.1, hres.2.1⟩)⟩

/-- C4. Error exactly when a blocking fetch fails: `MultiGet` returns an error
if and only if some requested key is absent or expired and the collaborator,
called with the keys to fetch, returns an error; the planner's flag
`needBackFill` is true exactly when some requested key is absent or expired;
and with an error the returned map is nil. -/
theorem C4_error_iff_blocking_fetch_fails (hc : halfCache) (now later : Time)
    (keys : List String) :
    ((hc.MultiGet now later keys).err ≠ none ↔
      (∃ k ∈ keys, hc.classOf now k = .ABSENT ∨ hc.classOf now k = .EXPIRED) ∧
        (hc.directMultiGet (hc.tryGetFromCache now keys).2.1).2 ≠ none) ∧
    ((hc.tryGetFromCache now keys).2.2 = true ↔
      ∃ k ∈ keys, hc.classOf now k = .ABSENT ∨ hc.classOf now k = .EXPIRED) ∧
    ((hc.MultiGet now later keys).err = none ∨ (hc.MultiGet now later keys).ret = none) := by
  refine ⟨?_, hc.needBackFill_iff now keys, ?_⟩
  · rw [← hc.needBackFill_iff now keys]
    by_cases hb : (hc.tryGetFromCache now keys).2.2 = true
    · by_cases herr : (hc.directMultiGet (hc.tryGetFromCache now keys).2.1).2 = none
      · rw [hc.MultiGet_blocking_ok now later keys hb herr]
        simp [herr]
      · rw [hc.MultiGet_blocking_error now later keys hb herr]
        simp [hb, herr]
    · have hb' : (hc.tryGetFromCache now keys).2.2 = false := by simpa using hb
      by_cases hdk : (hc.tryGetFromCache now keys).2.1 = []
      · rw [hc.MultiGet_nothing_to_fetch now later keys hdk]
        simp [hb']
      · rw [hc.MultiGet_detached now later keys hdk hb']
        simp [hb']
  · by_cases hb : (hc.tryGetFromCache now keys).2.2 = true
    · by_cases herr : (hc.directMultiGet (hc.tryGetFromCache now keys).2.1).2 = none
      · rw [hc.MultiGet_blocking_ok now later keys hb herr]
        exact Or.inl rfl
      · rw [hc.MultiGet_blocking_error now later keys hb herr]
        exact Or.inr rfl
    · have hb' : (hc.tryGetFromCache now keys).2.2 = false := by simpa using hb
      by_cases hdk : (hc.tryGetFromCache now keys).2.1 = []
      · rw [hc.MultiGet_nothing_to_fetch now later keys hdk]
        exact Or.inl rfl
      · rw [hc.MultiGet_detached now later keys hdk hb']
        exact Or.inl rfl

/-- A call none of whose keys is absent or expired returns what the planner
served, whatever the collaborator does. -/
theorem halfCache.MultiGet_of_all_served (hc : halfCache) (now later : Time)
    (keys : List String)
    (hserved : ∀ k ∈ keys, hc.classOf now k = .FRESH ∨ hc.classOf now k = .STALE) :
    (hc.MultiGet now later keys).ret = some (hc.tryGetFromCache now keys).1 ∧
    (hc.MultiGet now later keys).err = none ∧ (hc.MultiGet now later keys).waited = false := by
  have hb : (hc.tryGetFromCache now keys).2.2 = false := by
    cases h : (hc.tryGetFromCache now keys).2.2 with
    | false => rfl
    | true =>
      obtain ⟨k, hk, hcl⟩ := (hc.needBackFill_iff now keys).mp h
      rcases hserved k hk with h1 | h1 <;> rcases hcl with h2 | h2 <;> rw [h1] at h2 <;> cases h2
  by_cases hdk : (hc.tryGetFromCache now keys).2.1 = []
  · rw [hc.MultiGet_nothing_to_fetch now later keys hdk]
    exact ⟨rfl, rfl, rfl⟩
  · rw [hc.MultiGet_detached now later keys hdk hb]
    exact ⟨rfl, rfl, rfl⟩

/-- C5. Stale-only calls do not depend on the collaborator: when every
requested key is fresh or stale, the call returns, with a nil error, the map of
each requested key to its cached value, and it returns the same for any two
collaborators, whatever they return and whenever they finish. -/
theorem C5_stale_only_independent_of_collaborator (hc : halfCache)
    (d₁ d₂ : List String → GoMap × Option GoError) (now later₁ later₂ : Time)
    (keys : List String)
    (hserved : ∀ k ∈ keys, hc.classOf now k = .FRESH ∨ hc.classOf now k = .STALE) :
    ({ hc with directMultiGet := d₁ }.MultiGet now later₁ keys).ret
      = ({ hc with directMultiGet := d₂ }.MultiGet now later₂ keys).ret ∧
    ({ hc with directMultiGet := d₁ }.MultiGet now later₁ keys).err = none ∧
    ({ hc with directMultiGet := d₂ }.MultiGet now later₂ keys).err = none ∧
    ∃ res, ({ hc with directMultiGet := d₁ }.MultiGet now later₁ keys).ret = some res ∧
      (∀ k, res.lookup k = if k ∈ keys then hc.cachedValue k else none) ∧
      (∀ k ∈ keys, ∃ v, res.lookup k = some v) := by
  have h1 := halfCache.MultiGet_of_all_served { hc with directMultiGet := d₁ } now later₁ keys
    hserved
  have h2 := halfCache.MultiGet_of_all_served { hc with directMultiGet := d₂ } now later₂ keys
    hserved
  have hlook : ∀ k, (halfCache.tryGetFromCache { hc with directMultiGet := d₁ } now keys).1.lookup k
      = if k ∈ keys then hc.cachedValue k else none := by
    intro k
    rw [halfCache.tryGetFromCache_ret]
    by_cases hk : k ∈ keys
    · rw [if_pos hk]
      exact if_pos ⟨hk, hserved k hk⟩
    · rw [if_neg hk]
      exact if_neg (fun h => hk h.1)
  refine ⟨by rw [h1.1, h2.1]; rfl, h1.2.1, h2.2.1, _, h1.1, hlook, ?_⟩
  intro k hk
  obtain ⟨v, hv⟩ := hc.cachedValue_of_served now k (hserved k hk)
  exact ⟨v, by rw [hlook, if_pos hk, hv]⟩

/-- C5 on the test's cache 2.5 s after its first call, a and c being stale: a
collaborator that fails and one whose data has changed. -/
theorem C5_stale_only_independent_of_collaborator_witness :
    (∀ k ∈ ["a", "c"], (filledHalfCache testDirectMultiGet).classOf 2500000000 k = .FRESH
      ∨ (filledHalfCache testDirectMultiGet).classOf 2500000000 k = .STALE) ∧
    ((filledHalfCache failingDirectMultiGet).MultiGet 2500000000 2600000000 ["a", "c"]).ret
      = ((filledHalfCache changedDirectMultiGet).MultiGet 2500000000 2700000000 ["a", "c"]).ret ∧
    ((filledHalfCache failingDirectMultiGet).MultiGet 2500000000 2600000000 ["a", "c"]).err
      = none :=
  have hserved : ∀ k ∈ ["a", "c"],
      (filledHalfCache testDirectMultiGet).classOf 2500000000 k = .FRESH
      ∨ (filledHalfCache testDirectMultiGet).classOf 2500000000 k = .STALE := by decide
  have h := C5_stale_only_independent_of_collaborator (filledHalfCache testDirectMultiGet)
    failingDirectMultiGet changedDirectMultiGet 2500000000 2600000000 2700000000 ["a", "c"]
    hserved
  ⟨hserved, h.1, h.2.1⟩

/-- C6. One scoped fetch per call: when the planner's list of keys to fetch is
not empty, the collaborator is called exactly once, with that list, which is
the requested keys that are stale, absent or expired, in request order; no
fresh key is in it. -/
theorem C6_one_scoped_fetch (hc : halfCache) (now later : Time) (keys : List String)
    (hne : (hc.tryGetFromCache now keys).2.1 ≠ []) :
    (hc.MultiGet now later keys).calls = [(hc.tryGetFromCache now keys).2.1] ∧
    (hc.tryGetFromCache now keys).2.1 = keys.filter (fun k =>
      decide (hc.classOf now k = .STALE ∨ hc.classOf now k = .ABSENT
        ∨ hc.classOf now k = .EXPIRED)) ∧
    ∀ k ∈ (hc.tryGetFromCache now keys).2.1, hc.classOf now k ≠ .FRESH := by
  refine ⟨?_, ?_, ?_⟩
  · by_cases hb : (hc.tryGetFromCache now keys).2.2 = true
    · by_cases herr : (hc.directMultiGet (hc.tryGetFromCache now keys).2.1).2 = none
      · rw [hc.MultiGet_blocking_ok now later keys hb herr]
      · rw [hc.MultiGet_blocking_error now later keys hb herr]
    · have hb' : (hc.tryGetFromCache now keys).2.2 = false := by simpa using hb
      rw [hc.MultiGet_detached now later keys hne hb']
  · rw [hc.tryGetFromCache_directKeys]
    congr 1
    funext k
    cases hc.classOf now k <;> decide
  · intro k hk
    exact ((hc.mem_directKeys_iff now keys k).mp hk).2

/-- C6 on the test's second call: a and c are fresh, b is absent, and the
collaborator is called once, with b alone. -/
theorem C6_one_scoped_fetch_witness :
    ((filledHalfCache testDirectMultiGet).tryGetFromCache 200000000 ["a", "b", "c"]).2.1 ≠ [] ∧
    ((filledHalfCache testDirectMultiGet).MultiGet 200000000 300000000 ["a", "b", "c"]).calls
      = [["b"]] :=
  ⟨by decide,
    (C6_one_scoped_fetch (filledHalfCache testDirectMultiGet) 200000000 300000000
      ["a", "b", "c"] (by decide)).1⟩

/-- C7. Cache hit returns without fetch: when every requested key is fresh
(the empty key list included), the collaborator is not called, the error is
nil and the returned map holds each requested key with its cached value and
nothing else (the empty map for the empty key list); the store is left as it
was. -/
theorem C7_cache_hit_without_fetch (hc : halfCache) (now later : Time) (keys : List String)
    (hfresh : ∀ k ∈ keys, hc.classOf now k = .FRESH) :
    (hc.MultiGet now later keys).calls = [] ∧
    (hc.MultiGet now later keys).err = none ∧
    (hc.MultiGet now later keys).cache = hc.cache ∧
    ∃ res, (hc.MultiGet now later keys).ret = some res ∧
      (∀ k, res.lookup k = if k ∈ keys then hc.cachedValue k else none) ∧
      (∀ k ∈ keys, ∃ v, res.lookup k = some v) ∧
      (keys = [] → res = ∅) := by
  have hdk : (hc.tryGetFromCache now keys).2.1 = [] := by
    rw [hc.tryGetFromCache_directKeys, List.filter_eq_nil_iff]
    intro k hk
    simp [hfresh k hk]
  have hlook : ∀ k, (hc.tryGetFromCache now keys).1.lookup k
      = if k ∈ keys then hc.cachedValue k else none := by
    intro k
    rw [hc.tryGetFromCache_ret]
    by_cases hk : k ∈ keys
    · rw [if_pos hk]
      exact if_pos ⟨hk, Or.inl (hfresh k hk)⟩
    · rw [if_neg hk]
      exact if_neg (fun h => hk h.1)
  rw [hc.MultiGet_nothing_to_fetch now later keys hdk]
  refine ⟨rfl, rfl, rfl, _, rfl, hlook, ?_, ?_⟩
  · intro k hk
    obtain ⟨v, hv⟩ := hc.cachedValue_of_served now k (Or.inl (hfresh k hk))
    exact ⟨v, by rw [hlook, if_pos hk, hv]⟩
  · intro hnil
    subst hnil
    rfl

/-- C7 on the test's cache 0.2 s after its first call: a and c are fresh. -/
theorem C7_cache_hit_without_fetch_witness :
    (∀ k ∈ ["c", "a"], (filledHalfCache failingDirectMultiGet).classOf 200000000 k = .FRESH) ∧
    ((filledHalfCache failingDirectMultiGet).MultiGet 200000000 300000000 ["c", "a"]).calls = [] ∧
    ((filledHalfCache failingDirectMultiGet).MultiGet 200000000 300000000 ["c", "a"]).err
      = none ∧
    ((filledHalfCache failingDirectMultiGet).MultiGet 200000000 300000000 ["c", "a"]).ret.bind
      (Finmap.lookup "a") = some [97, 97, 97] :=
  have h := C7_cache_hit_without_fetch (filledHalfCache failingDirectMultiGet) 200000000
    300000000 ["c", "a"] (by decide)
  ⟨by decide, h.1, h.2.1, by decide⟩

/-! ## Fill, hit and expiry -/

/-- C1, as stated, fails: the test's first call stored "aaa" for a at instant
0.1 s; a call for a and b at 0.2 s, within `updateTTL` of the write, finds a
fresh and b absent, and when the collaborator fails the call returns a nil map
and an error, so it does not return the cached value for a. -/
theorem C1_fill_then_hit_counterexample :
    (testHalfCache.directMultiGet (testHalfCache.tryGetFromCache 0 ["a", "c"]).2.1).1.lookup "a"
      = some [97, 97, 97] ∧
    (filledHalfCache failingDirectMultiGet).cache.entries "a"
      = (testHalfCache.MultiGet 0 100000000 ["a", "c"]).cache.entries "a" ∧
    (100000000 : Int) ≤ 200000000 ∧
    (200000000 : Int) ≤ 100000000 + testHalfCache.updateTTL ∧
    "a" ∈ ["a", "b"] ∧
    ((filledHalfCache failingDirectMultiGet).MultiGet 200000000 300000000 ["a", "b"]).ret = none ∧
    ((filledHalfCache failingDirectMultiGet).MultiGet 200000000 300000000 ["a", "b"]).err
      ≠ none := by
  refine ⟨by decide, rfl, by decide, by decide, by decide, ?_, ?_⟩
  · rfl
  · decide

/-- C1, amended. Fill then hit, for a non-empty value and `updateTTL <= finalTTL`:
let a call whose fetch succeeded have received the non-empty value `v` for the
key `k`, `updateCache` having run at instant `t` (with Unix seconds in the range
of `int64`) and the store having accepted the write; let a later call that
contains `k` read the clock at `t'` with `t <= t' <= t + updateTTL`, on a store
that still holds that entry for `k`. Then `k` is fresh, the planner serves `v`
for `k` from the cache, `k` is in no argument of the collaborator, and the call,
when it returns without error and (if it blocked) the collaborator's result has
no entry for `k`, returns `v` for `k`. -/
theorem C1_fill_then_hit (hc : halfCache) (now t : Time) (keys : List String) (k : String)
    (v : Bytes) (hne : (hc.tryGetFromCache now keys).2.1 ≠ [])
    (hok : (hc.directMultiGet (hc.tryGetFromCache now keys).2.1).2 = none)
    (hv : (hc.directMultiGet (hc.tryGetFromCache now keys).2.1).1.lookup k = some v)
    (hv0 : v ≠ []) (httl : hc.updateTTL ≤ hc.finalTTL)
    (hu : isInt64 (Unix (Add t hc.updateTTL))) (hf : isInt64 (Unix (Add t hc.finalTTL)))
    (hacc : hc.cache.rejects k
      (recordBytes (Unix (Add t hc.updateTTL)) (Unix (Add t hc.finalTTL)) v) = false)
    (hc2 : halfCache)
    (hstore : hc2.cache.entries k = (hc.MultiGet now t keys).cache.entries k)
    (t' later' : Time) (keys' : List String) (hk : k ∈ keys')
    (_h1 : t ≤ t') (h2 : t' ≤ t + hc.updateTTL) :
    hc2.classOf t' k = .FRESH ∧
    (hc2.tryGetFromCache t' keys').1.lookup k = some v ∧
    (∀ ks ∈ (hc2.MultiGet t' later' keys').calls, k ∉ ks) ∧
    ((hc2.MultiGet t' later' keys').err = none →
      ((hc2.tryGetFromCache t' keys').2.2 = true →
        k ∉ (hc2.directMultiGet (hc2.tryGetFromCache t' keys').2.1).1) →
      ∃ res, (hc2.MultiGet t' later' keys').ret = some res ∧ res.lookup k = some v) := by
  rw [hc.MultiGet_cache_of_fetch_ok now t keys hne hok,
    hc.updateCache_entries_of_accepted t _ k v hv hacc] at hstore
  obtain ⟨hcl, hval⟩ := hc2.classOf_of_record t' k _ _ _ v hstore hu hf hv0
  have hle1 : Unix t' ≤ Unix (Add t hc.updateTTL) := Unix_mono _ _ h2
  have hle2 : Unix (Add t hc.updateTTL) ≤ Unix (Add t hc.finalTTL) :=
    Unix_mono _ _ (Int.add_le_add_left httl t)
  have hfresh : hc2.classOf t' k = .FRESH := by
    rw [hcl, if_neg (not_lt.mpr (le_trans hle1 hle2)), if_neg (not_lt.mpr hle1)]
  have hserved : (hc2.tryGetFromCache t' keys').1.lookup k = some v := by
    rw [hc2.tryGetFromCache_ret, if_pos ⟨hk, Or.inl hfresh⟩, hval]
  have hnot : k ∉ (hc2.tryGetFromCache t' keys').2.1 := by
    rw [hc2.mem_directKeys_iff]
    exact fun h => h.2 hfresh
  refine ⟨hfresh, hserved, ?_, ?_⟩
  · intro ks hks
    rw [hc2.MultiGet_calls_subset t' later' keys' ks hks]
    exact hnot
  · intro herr hmerge
    by_cases hb : (hc2.tryGetFromCache t' keys').2.2 = true
    · by_cases hfetch : (hc2.directMultiGet (hc2.tryGetFromCache t' keys').2.1).2 = none
      · rw [hc2.MultiGet_blocking_ok t' later' keys' hb hfetch]
        refine ⟨_, rfl, ?_⟩
        rw [backFillResult_lookup, Finmap.lookup_eq_none.mpr (hmerge hb)]
        exact hserved
      · rw [hc2.MultiGet_blocking_error t' later' keys' hb hfetch] at herr
        cases herr
    · have hb' : (hc2.tryGetFromCache t' keys').2.2 = false := by simpa using hb
      by_cases hdk : (hc2.tryGetFromCache t' keys').2.1 = []
      · rw [hc2.MultiGet_nothing_to_fetch t' later' keys' hdk]
        exact ⟨_, rfl, hserved⟩
      · rw [hc2.MultiGet_detached t' later' keys' hdk hb']
        exact ⟨_, rfl, hserved⟩

/-- C1, amended, on the test: the first call stored "aaa" for a at 0.1 s, and
the second call, for a, b and c at 0.2 s, finds a fresh, serves "aaa" for it
and asks the collaborator for b alone. -/
theorem C1_fill_then_hit_witness :
    (testHalfCache.tryGetFromCache 0 ["a", "c"]).2.1 ≠ [] ∧
    (testHalfCache.directMultiGet (testHalfCache.tryGetFromCache 0 ["a", "c"]).2.1).1.lookup "a"
      = some [97, 97, 97] ∧
    testHalfCache.updateTTL ≤ testHalfCache.finalTTL ∧
    (100000000 : Int) ≤ 200000000 ∧ (200000000 : Int) ≤ 100000000 + testHalfCache.updateTTL ∧
    (filledHalfCache testDirectMultiGet).classOf 200000000 "a" = .FRESH ∧
    ((filledHalfCache testDirectMultiGet).tryGetFromCache 200000000 ["a", "b", "c"]).1.lookup "a"
      = some [97, 97, 97] ∧
    (∀ ks ∈ ((filledHalfCache testDirectMultiGet).MultiGet 200000000 300000000
      ["a", "b", "c"]).calls, "a" ∉ ks) :=
  have h := C1_fill_then_hit testHalfCache 0 100000000 ["a", "c"] "a" [97, 97, 97]
    (by decide) (by decide) (by decide) (by decide) (by decide) (by decide) (by decide)
    (by decide) (filledHalfCache testDirectMultiGet) rfl 200000000 300000000 ["a", "b", "c"]
    (by decide) (by decide) (by decide)
  ⟨by decide, by decide, by decide, by decide, by decide, h.1, h.2.1, h.2.2.1⟩

/-- C9, as stated, fails: the test's first call wrote the record of a at
instant 0.1 s with `finalTTL` 5 s, so with `expireAt` 5; a call at 5.5 s comes
5.4 s after the write, more than `finalTTL`, yet its clock reads Unix second 5,
the record is stale and not expired, the caller does not wait, and the response
carries the stored "aaa", not the value 120 the collaborator now returns. -/
theorem C9_expired_not_served_counterexample :
    (5500000000 : Int) - 100000000 > testHalfCache.finalTTL ∧
    (filledHalfCache changedDirectMultiGet).cache.entries "a"
      = (testHalfCache.updateCache 100000000 (testDirectMultiGet ["a", "c"]).1).entries "a" ∧
    (filledHalfCache changedDirectMultiGet).classOf 5500000000 "a" = .STALE ∧
    ((filledHalfCache changedDirectMultiGet).MultiGet 5500000000 5600000000 ["a"]).waited
      = false ∧
    ((filledHalfCache changedDirectMultiGet).MultiGet 5500000000 5600000000 ["a"]).ret.bind
      (Finmap.lookup "a") = some [97, 97, 97] ∧
    (changedDirectMultiGet ["a"]).1.lookup "a" = some [120] := by
  refine ⟨by decide, rfl, by decide, by decide, by decide, by decide⟩

/-- C9, amended. Expired entries are not served once the Unix second of the
clock has passed `expireAt`: for a record with a non-empty value written by
`updateCache` at instant `t` (with Unix seconds in the range of `int64`, the
store having accepted the write) and a call for its key that reads the clock at
`t'` with `Unix(t') > Unix(t + finalTTL)`, on a store that still holds the
record, the key is expired, is not served from the cache and is among the keys
to fetch, the caller waits for the one call of the collaborator, and the
response carries for the key what the collaborator returned for it, or is nil
with an error when the collaborator failed. The condition on `t'` holds
whenever `t' - t >= finalTTL + 1 s`. -/
theorem C9_expired_not_served (hc : halfCache) (t : Time) (m : GoMap) (k : String) (v : Bytes)
    (hv : m.lookup k = some v) (hv0 : v ≠ [])
    (hu : isInt64 (Unix (Add t hc.updateTTL))) (hf : isInt64 (Unix (Add t hc.finalTTL)))
    (hacc : hc.cache.rejects k
      (recordBytes (Unix (Add t hc.updateTTL)) (Unix (Add t hc.finalTTL)) v) = false)
    (hc2 : halfCache) (hstore : hc2.cache.entries k = (hc.updateCache t m).entries k)
    (t' later' : Time) (keys' : List String) (hk : k ∈ keys')
    (hexp : Unix (Add t hc.finalTTL) < Unix t') :
    hc2.classOf t' k = .EXPIRED ∧
    (hc2.tryGetFromCache t' keys').1.lookup k = none ∧
    k ∈ (hc2.tryGetFromCache t' keys').2.1 ∧
    (hc2.tryGetFromCache t' keys').2.2 = true ∧
    (hc2.MultiGet t' later' keys').waited = true ∧
    (hc2.MultiGet t' later' keys').calls = [(hc2.tryGetFromCache t' keys').2.1] ∧
    ((hc2.directMultiGet (hc2.tryGetFromCache t' keys').2.1).2 = none →
      ∃ res, (hc2.MultiGet t' later' keys').ret = some res ∧
        res.lookup k = (hc2.directMultiGet (hc2.tryGetFromCache t' keys').2.1).1.lookup k) ∧
    ((hc2.directMultiGet (hc2.tryGetFromCache t' keys').2.1).2 ≠ none →
      (hc2.MultiGet t' later' keys').ret = none ∧ (hc2.MultiGet t' later' keys').err ≠ none) ∧
    (∀ s s' : Int, hc.finalTTL + 1000000000 ≤ s' - s → Unix (Add s hc.finalTTL) < Unix s') := by
  rw [hc.updateCache_entries_of_accepted t m k v hv hacc] at hstore
  obtain ⟨hcl, _⟩ := hc2.classOf_of_record t' k _ _ _ v hstore hu hf hv0
  have hexpired : hc2.classOf t' k = .EXPIRED := by
    rw [hcl, if_pos hexp]
  have hb : (hc2.tryGetFromCache t' keys').2.2 = true :=
    (hc2.needBackFill_iff t' keys').mpr ⟨k, hk, Or.inr hexpired⟩
  have hnone : (hc2.tryGetFromCache t' keys').1.lookup k = none := by
    rw [hc2.tryGetFromCache_ret]
    apply if_neg
    rintro ⟨_, h | h⟩ <;> rw [hexpired] at h <;> cases h
  have hmem : k ∈ (hc2.tryGetFromCache t' keys').2.1 := by
    rw [hc2.mem_directKeys_iff]
    exact ⟨hk, by rw [hexpired]; decide⟩
  refine ⟨hexpired, hnone, hmem, hb, ?_, ?_, ?_, ?_, ?_⟩
  · by_cases hfetch : (hc2.directMultiGet (hc2.tryGetFromCache t' keys').2.1).2 = none
    · rw [hc2.MultiGet_blocking_ok t' later' keys' hb hfetch]
    · rw [hc2.MultiGet_blocking_error t' later' keys' hb hfetch]
  · by_cases hfetch : (hc2.directMultiGet (hc2.tryGetFromCache t' keys').2.1).2 = none
    · rw [hc2.MultiGet_blocking_ok t' later' keys' hb hfetch]
    · rw [hc2.MultiGet_blocking_error t' later' keys' hb hfetch]
  · intro hfetch
    rw [hc2.MultiGet_blocking_ok t' later' keys' hb hfetch]
    refine ⟨_, rfl, ?_⟩
    rw [backFillResult_lookup, hnone]
    cases (hc2.directMultiGet (hc2.tryGetFromCache t' keys').2.1).1.lookup k <;> rfl
  · intro hfetch
    rw [hc2.MultiGet_blocking_error t' later' keys' hb hfetch]
    exact ⟨rfl, by simp⟩
  · intro s s' h
    exact Unix_Add_lt_of_second_elapsed s s' hc.finalTTL h

/-- C9, amended, on the test: the record of a written at 0.1 s has `expireAt`
5; a call at 6 s finds it expired, waits, and returns the value 120 the
collaborator now has, not the stored "aaa". -/
theorem C9_expired_not_served_witness :
    (testDirectMultiGet ["a", "c"]).1.lookup "a" = some [97, 97, 97] ∧
    Unix (Add 100000000 testHalfCache.finalTTL) < Unix 6000000000 ∧
    (filledHalfCache changedDirectMultiGet).classOf 6000000000 "a" = .EXPIRED ∧
    ((filledHalfCache changedDirectMultiGet).MultiGet 6000000000 6100000000 ["a"]).waited
      = true ∧
    ((filledHalfCache changedDirectMultiGet).MultiGet 6000000000 6100000000 ["a"]).ret.bind
      (Finmap.lookup "a") = some [120] :=
  have h := C9_expired_not_served testHalfCache 100000000 (testDirectMultiGet ["a", "c"]).1 "a"
    [97, 97, 97] (by decide) (by decide) (by decide) (by decide) (by decide)
    (filledHalfCache changedDirectMultiGet) rfl 6000000000 6100000000 ["a"] (by decide)
    (by decide)
  ⟨by decide, by decide, h.1, h.2.2.2.2.1, by decide⟩

/-! ## What the conditions of fill-then-hit exclude -/

/-- An empty value is stored as the bare header, does not decode, and its key
is absent for the next call, which fetches it again and waits. -/
theorem empty_value_is_fetched_again :
    ({ testHalfCache with directMultiGet := emptyValueDirectMultiGet }.MultiGet 0 100000000
      ["a"]).cache.entries "a" = some ⟨recordBytes 1 5 [], 5000000000⟩ ∧
    halfCache.classOf { testHalfCache with
      cache := ({ testHalfCache with directMultiGet := emptyValueDirectMultiGet }.MultiGet 0
        100000000 ["a"]).cache } 200000000 "a" = .ABSENT ∧
    (halfCache.MultiGet { testHalfCache with
      cache := ({ testHalfCache with directMultiGet := emptyValueDirectMultiGet }.MultiGet 0
        100000000 ["a"]).cache } 200000000 300000000 ["a"]).calls = [["a"]] := by
  refine ⟨by decide, by decide, by decide⟩

/-- With `updateTTL` 5 s above `finalTTL` 1 s, a record written at instant 0 is
expired at 3 s, within `updateTTL` of the write. -/
theorem misconfigured_record_expires_within_updateTTL :
    (3000000000 : Int) ≤ 0 + misconfiguredHalfCache.updateTTL ∧
    halfCache.classOf { misconfiguredHalfCache with
      cache := (misconfiguredHalfCache.MultiGet 0 0 ["a"]).cache } 3000000000 "a"
      = .EXPIRED := by
  refine ⟨by decide, by decide⟩

/-- The merge copies a pair the collaborator returns for a key it was not asked
for: a is fresh and only b is fetched, yet the response carries the
collaborator's value for a. -/
theorem merge_copies_unrequested_key :
    (filledHalfCache unaskedDirectMultiGet).classOf 200000000 "a" = .FRESH ∧
    ((filledHalfCache unaskedDirectMultiGet).MultiGet 200000000 300000000 ["a", "b"]).calls
      = [["b"]] ∧
    ((filledHalfCache unaskedDirectMultiGet).tryGetFromCache 200000000 ["a", "b"]).1.lookup "a"
      = some [97, 97, 97] ∧
    ((filledHalfCache unaskedDirectMultiGet).MultiGet 200000000 300000000 ["a", "b"]).ret.bind
      (Finmap.lookup "a") = some [120] := by
  refine ⟨by decide, by decide, by decide, by decide⟩

/-! ## The planner's output -/

/-- C13. Planner partition: the keys of the map `tryGetFromCache` returns are
exactly the requested keys that are fresh or stale, each with the value its
record decodes to; `directKeys` is exactly the requested keys that are stale,
absent or expired, in request order, a sublist of the request; every requested
key is in the map or in `directKeys`, and a key is in both exactly when it is
requested and stale. This holds for every key list, distinct keys or not. -/
theorem C13_planner_partition (hc : halfCache) (t : Time) (keys : List String) :
    (∀ k, k ∈ (hc.tryGetFromCache t keys).1 ↔
      k ∈ keys ∧ (hc.classOf t k = .FRESH ∨ hc.classOf t k = .STALE)) ∧
    (∀ k ∈ (hc.tryGetFromCache t keys).1,
      (hc.tryGetFromCache t keys).1.lookup k = hc.cachedValue k) ∧
    (hc.tryGetFromCache t keys).2.1 = keys.filter (fun k =>
      decide (hc.classOf t k = .STALE ∨ hc.classOf t k = .ABSENT
        ∨ hc.classOf t k = .EXPIRED)) ∧
    List.Sublist (hc.tryGetFromCache t keys).2.1 keys ∧
    (∀ k ∈ keys, k ∈ (hc.tryGetFromCache t keys).1 ∨ k ∈ (hc.tryGetFromCache t keys).2.1) ∧
    (∀ k, (k ∈ (hc.tryGetFromCache t keys).1 ∧ k ∈ (hc.tryGetFromCache t keys).2.1) ↔
      (k ∈ keys ∧ hc.classOf t k = .STALE)) := by
  have hmem : ∀ k, k ∈ (hc.tryGetFromCache t keys).1 ↔
      k ∈ keys ∧ (hc.classOf t k = .FRESH ∨ hc.classOf t k = .STALE) := by
    intro k
    rw [← Finmap.lookup_isSome, hc.tryGetFromCache_ret]
    by_cases h : k ∈ keys ∧ (hc.classOf t k = .FRESH ∨ hc.classOf t k = .STALE)
    · obtain ⟨v, hv⟩ := hc.cachedValue_of_served t k h.2
      simp [h, hv]
    · simp [h]
  have hfilter : (hc.tryGetFromCache t keys).2.1 = keys.filter (fun k =>
      decide (hc.classOf t k = .STALE ∨ hc.classOf t k = .ABSENT
        ∨ hc.classOf t k = .EXPIRED)) := by
    rw [hc.tryGetFromCache_directKeys]
    congr 1
    funext k
    cases hc.classOf t k <;> decide
  refine ⟨hmem, ?_, hfilter, ?_, ?_, ?_⟩
  · intro k hk
    rw [hc.tryGetFromCache_ret, if_pos ((hmem k).mp hk)]
  · rw [hfilter]
    exact List.filter_sublist _
  · intro k hk
    rw [hmem, hc.mem_directKeys_iff]
    cases hcl : hc.classOf t k <;> simp [hk]
  · intro k
    rw [hmem, hc.mem_directKeys_iff]
    constructor
    · rintro ⟨⟨hk, h | h⟩, _, hne⟩
      · exact absurd h hne
      · exact ⟨hk, h⟩
    · rintro ⟨hk, h⟩
      exact ⟨⟨hk, Or.inr h⟩, hk, by rw [h]; decide⟩

/-- C14. The blocking flag: `needBackFill` is true if and only if `directKeys`
contains a key that is absent or expired; it is false when `directKeys` is
empty and when every key of `directKeys` is stale. -/
theorem C14_mustBlock_characterisation (hc : halfCache) (t : Time) (keys : List String) :
    ((hc.tryGetFromCache t keys).2.2 = true ↔
      ∃ k ∈ (hc.tryGetFromCache t keys).2.1,
        hc.classOf t k = .ABSENT ∨ hc.classOf t k = .EXPIRED) ∧
    ((hc.tryGetFromCache t keys).2.1 = [] → (hc.tryGetFromCache t keys).2.2 = false) ∧
    ((∀ k ∈ (hc.tryGetFromCache t keys).2.1, hc.classOf t k = .STALE) →
      (hc.tryGetFromCache t keys).2.2 = false) := by
  have hiff : (hc.tryGetFromCache t keys).2.2 = true ↔
      ∃ k ∈ (hc.tryGetFromCache t keys).2.1,
        hc.classOf t k = .ABSENT ∨ hc.classOf t k = .EXPIRED := by
    rw [hc.needBackFill_iff]
    constructor
    · rintro ⟨k, hk, hcl⟩
      refine ⟨k, (hc.mem_directKeys_iff t keys k).mpr ⟨hk, ?_⟩, hcl⟩
      rcases hcl with h | h <;> rw [h] <;> decide
    · rintro ⟨k, hk, hcl⟩
      exact ⟨k, ((hc.mem_directKeys_iff t keys k).mp hk).1, hcl⟩
  refine ⟨hiff, ?_, ?_⟩
  · intro hnil
    cases hb : (hc.tryGetFromCache t keys).2.2 with
    | false => rfl
    | true => exact absurd hnil (hc.directKeys_ne_nil_of_needBackFill t keys hb)
  · intro hstale
    cases hb : (hc.tryGetFromCache t keys).2.2 with
    | false => rfl
    | true =>
      obtain ⟨k, hk, hcl⟩ := hiff.mp hb
      have hs := hstale k hk
      rcases hcl with h | h <;> rw [h] at hs <;> cases hs

/-! ## An entry that does not decode -/

theorem halfCache.tryGetFromCacheStep_without (hc : halfCache) (t : Time) (k : String)
    (e : CacheEntry) (hent : hc.cache.entries k = some e) (hshort : e.value.length < 16)
    (st : GoMap × List String × Bool) (key : String) :
    hc.tryGetFromCacheStep t st key
      = halfCache.tryGetFromCacheStep { hc with cache := hc.cache.without k } t st key := by
  obtain ⟨err, herr⟩ := UnmarshalBinary_of_le e.value (by omega)
  unfold halfCache.tryGetFromCacheStep Cache.Get Cache.without halfCache.extractData
  by_cases hk : key = k
  · subst hk
    simp [hent, herr]
  · simp [hk]

theorem halfCache.tryGetFromCache_without (hc : halfCache) (t : Time) (k : String)
    (e : CacheEntry) (hent : hc.cache.entries k = some e) (hshort : e.value.length < 16)
    (keys : List String) :
    hc.tryGetFromCache t keys
      = halfCache.tryGetFromCache { hc with cache := hc.cache.without k } t keys := by
  unfold halfCache.tryGetFromCache
  have hstep : hc.tryGetFromCacheStep t
      = halfCache.tryGetFromCacheStep { hc with cache := hc.cache.without k } t :=
    funext fun st => funext fun key => hc.tryGetFromCacheStep_without t k e hent hshort st key
  rw [hstep]

/-- What a call returns to its caller depends on the store only through the
planner's output. -/
theorem halfCache.MultiGet_congr (hc hc2 : halfCache) (now later later2 : Time)
    (keys : List String) (hp : hc.tryGetFromCache now keys = hc2.tryGetFromCache now keys)
    (hd : hc.directMultiGet = hc2.directMultiGet) :
    (hc.MultiGet now later keys).ret = (hc2.MultiGet now later2 keys).ret ∧
    (hc.MultiGet now later keys).err = (hc2.MultiGet now later2 keys).err ∧
    (hc.MultiGet now later keys).calls = (hc2.MultiGet now later2 keys).calls ∧
    (hc.MultiGet now later keys).waited = (hc2.MultiGet now later2 keys).waited := by
  unfold halfCache.MultiGet
  rw [← hp, ← hd]
  generalize hc.tryGetFromCache now keys = p
  obtain ⟨ret, dk, nb⟩ := p
  simp only
  split
  · exact ⟨rfl, rfl, rfl, rfl⟩
  · cases nb <;> by_cases herr : (hc.directMultiGet dk).2 = none <;> simp [herr]

/-- An error of `MultiGet` is an error of the collaborator on a call that had
to block. -/
theorem halfCache.MultiGet_err_of_ne_none (hc : halfCache) (now later : Time)
    (keys : List String) (h : (hc.MultiGet now later keys).err ≠ none) :
    (hc.tryGetFromCache now keys).2.2 = true ∧
    (hc.directMultiGet (hc.tryGetFromCache now keys).2.1).2 ≠ none := by
  by_cases hb : (hc.tryGetFromCache now keys).2.2 = true
  · by_cases herr : (hc.directMultiGet (hc.tryGetFromCache now keys).2.1).2 = none
    · rw [hc.MultiGet_blocking_ok now later keys hb herr] at h
      exact absurd rfl h
    · exact ⟨hb, herr⟩
  · have hb' : (hc.tryGetFromCache now keys).2.2 = false := by simpa using hb
    by_cases hdk : (hc.tryGetFromCache now keys).2.1 = []
    · rw [hc.MultiGet_nothing_to_fetch now later keys hdk] at h
      exact absurd rfl h
    · rw [hc.MultiGet_detached now later keys hdk hb'] at h
      exact absurd rfl h

/-- C15. Decode failure is a cache miss: stored bytes shorter than the 16-byte
header do not decode; for a key holding such bytes the planner returns exactly
what it returns on the store without an entry for that key, with the key, when
requested, among the keys to fetch, the blocking flag set and the key not
served; the call returns to its caller what it returns on that store, and it
returns an error only when the collaborator returns one. -/
theorem C15_decode_failure_is_cache_miss (hc : halfCache) (now later : Time)
    (keys : List String) (k : String) (e : CacheEntry)
    (hent : hc.cache.entries k = some e) (hshort : e.value.length < 16) :
    (∃ err, UnmarshalBinary e.value = .error err) ∧
    hc.classOf now k = .ABSENT ∧
    hc.tryGetFromCache now keys
      = halfCache.tryGetFromCache { hc with cache := hc.cache.without k } now keys ∧
    (k ∈ keys → k ∈ (hc.tryGetFromCache now keys).2.1 ∧ (hc.tryGetFromCache now keys).2.2 = true
      ∧ k ∉ (hc.tryGetFromCache now keys).1) ∧
    (hc.MultiGet now later keys).ret
      = (halfCache.MultiGet { hc with cache := hc.cache.without k } now later keys).ret ∧
    (hc.MultiGet now later keys).err
      = (halfCache.MultiGet { hc with cache := hc.cache.without k } now later keys).err ∧
    (hc.MultiGet now later keys).calls
      = (halfCache.MultiGet { hc with cache := hc.cache.without k } now later keys).calls ∧
    ((hc.MultiGet now later keys).err ≠ none →
      (hc.directMultiGet (hc.tryGetFromCache now keys).2.1).2 ≠ none) := by
  obtain ⟨err, herr⟩ := UnmarshalBinary_of_le e.value (by omega)
  have habsent : hc.classOf now k = .ABSENT := by
    unfold halfCache.classOf classify
    simp [hent, herr]
  have hplan := hc.tryGetFromCache_without now k e hent hshort keys
  have hcall := halfCache.MultiGet_congr hc { hc with cache := hc.cache.without k } now later
    later keys hplan rfl
  refine ⟨⟨err, herr⟩, habsent, hplan, ?_, hcall.1, hcall.2.1, hcall.2.2.1, ?_⟩
  · intro hk
    refine ⟨?_, ?_, ?_⟩
    · rw [hc.mem_directKeys_iff]
      exact ⟨hk, by rw [habsent]; decide⟩
    · exact (hc.needBackFill_iff now keys).mpr ⟨k, hk, Or.inl habsent⟩
    · rw [← Finmap.lookup_eq_none, hc.tryGetFromCache_ret]
      apply if_neg
      rintro ⟨_, h | h⟩ <;> rw [habsent] at h <;> cases h
  · intro h
    exact (hc.MultiGet_err_of_ne_none now later keys h).2

/-- C15 on the test's cache with the entry of c cut to three bytes: the
planner asks for c, as it does on the store without c, and the call returns
the fetched value without error. -/
theorem C15_decode_failure_is_cache_miss_witness :
    truncatedCache.entries "c" = some ⟨[1, 2, 3], 5000000000⟩ ∧
    ([1, 2, 3] : Bytes).length < 16 ∧
    (truncatedHalfCache testDirectMultiGet).classOf 200000000 "c" = .ABSENT ∧
    (truncatedHalfCache testDirectMultiGet).tryGetFromCache 200000000 ["a", "c"]
      = halfCache.tryGetFromCache { truncatedHalfCache testDirectMultiGet with
          cache := truncatedCache.without "c" } 200000000 ["a", "c"] ∧
    ((truncatedHalfCache testDirectMultiGet).tryGetFromCache 200000000 ["a", "c"]).2.1 = ["c"] ∧
    ((truncatedHalfCache testDirectMultiGet).MultiGet 200000000 300000000 ["a", "c"]).err
      = none :=
  have h := C15_decode_failure_is_cache_miss (truncatedHalfCache testDirectMultiGet) 200000000
    300000000 ["a", "c"] "c" ⟨[1, 2, 3], 5000000000⟩ (by decide) (by decide)
  ⟨by decide, by decide, h.2.1, h.2.2.1, by decide, by decide⟩

/-! ## What the refresh writes -/

theorem recordBytes_header (u f : Int) (v : Bytes) :
    getLE ((recordBytes u f v).take 8) = uint64 u ∧
    getLE (((recordBytes u f v).drop 8).take 8) = uint64 f := by
  have h8u := putLE_length 8 (uint64 u)
  have h8f := putLE_length 8 (uint64 f)
  have hp : (256 : Nat) ^ 8 = 18446744073709551616 := by norm_num
  unfold recordBytes
  constructor
  · rw [List.append_assoc, List.take_left' h8u, getLE_putLE, hp,
      Nat.mod_eq_of_lt (uint64_lt u)]
  · rw [List.append_assoc, List.drop_left' h8u, List.take_left' h8f, getLE_putLE, hp,
      Nat.mod_eq_of_lt (uint64_lt f)]

/-- C16. Written records keep `refreshAt <= expireAt`: with
`updateTTL <= finalTTL`, for every pair `(k, v)` of the fetched map that the
store accepts, the entry `updateCache` stores at instant `now` is the encoding
of the record with `UpdateTimeStamp = Unix(now + updateTTL)`,
`FinalTimeStamp = Unix(now + finalTTL)` and value `v`, whose `UpdateTimeStamp`
is at most its `FinalTimeStamp`; and the two header fields of the stored bytes
read back as these timestamps when they are in the range of `int64`. -/
theorem C16_written_records_keep_order (hc : halfCache) (now : Time) (m : GoMap) (k : String)
    (v : Bytes) (httl : hc.updateTTL ≤ hc.finalTTL) (hv : m.lookup k = some v)
    (hacc : hc.cache.rejects k
      (recordBytes (Unix (Add now hc.updateTTL)) (Unix (Add now hc.finalTTL)) v) = false) :
    ∃ r : entity,
      r.POD.UpdateTimeStamp = Unix (Add now hc.updateTTL) ∧
      r.POD.FinalTimeStamp = Unix (Add now hc.finalTTL) ∧
      r.Data = v ∧
      r.POD.UpdateTimeStamp ≤ r.POD.FinalTimeStamp ∧
      ∃ b, MarshalBinary r = .ok b ∧
        ((hc.updateCache now m).entries k).map CacheEntry.value = some b ∧
        (isInt64 r.POD.UpdateTimeStamp → isInt64 r.POD.FinalTimeStamp →
          int64 (getLE (b.take 8)) = r.POD.UpdateTimeStamp ∧
          int64 (getLE ((b.drop 8).take 8)) = r.POD.FinalTimeStamp ∧
          int64 (getLE (b.take 8)) ≤ int64 (getLE ((b.drop 8).take 8))) := by
  have hle : Unix (Add now hc.updateTTL) ≤ Unix (Add now hc.finalTTL) :=
    Unix_mono _ _ (Int.add_le_add_left httl now)
  refine ⟨⟨⟨Unix (Add now hc.updateTTL), Unix (Add now hc.finalTTL)⟩, v⟩, rfl, rfl, rfl, hle,
    recordBytes (Unix (Add now hc.updateTTL)) (Unix (Add now hc.finalTTL)) v,
    MarshalBinary_eq _, ?_, ?_⟩
  · rw [hc.updateCache_entries_of_accepted now m k v hv hacc]
    rfl
  · intro hu hf
    obtain ⟨h1, h2⟩ := recordBytes_header (Unix (Add now hc.updateTTL))
      (Unix (Add now hc.finalTTL)) v
    rw [h1, h2, int64_uint64 _ hu.1 hu.2, int64_uint64 _ hf.1 hf.2]
    exact ⟨rfl, rfl, hle⟩

/-- C16 on the test's first call: the record stored for a at 0.1 s has
`UpdateTimeStamp` 1 and `FinalTimeStamp` 5. -/
theorem C16_written_records_keep_order_witness :
    testHalfCache.updateTTL ≤ testHalfCache.finalTTL ∧
    (testDirectMultiGet ["a", "c"]).1.lookup "a" = some [97, 97, 97] ∧
    Unix (Add 100000000 testHalfCache.updateTTL) = 1 ∧
    Unix (Add 100000000 testHalfCache.finalTTL) = 5 ∧
    ∃ r : entity,
      r.POD.UpdateTimeStamp = Unix (Add 100000000 testHalfCache.updateTTL) ∧
      r.POD.FinalTimeStamp = Unix (Add 100000000 testHalfCache.finalTTL) ∧
      r.Data = [97, 97, 97] ∧
      r.POD.UpdateTimeStamp ≤ r.POD.FinalTimeStamp :=
  have h := C16_written_records_keep_order testHalfCache 100000000
    (testDirectMultiGet ["a", "c"]).1 "a" [97, 97, 97] (by decide) (by decide) (by decide)
  ⟨by decide, by decide, by decide, by decide,
    h.imp (fun _ hr => ⟨hr.1, hr.2.1, hr.2.2.1, hr.2.2.2.1⟩)⟩

/-- C11. The expiry argument of `Set` is the nanosecond count of `finalTTL`:
the loop body of `updateCache` calls `Set` with the encoded record and
`int(hc.finalTTL)`, and on the test's cache, configured with a `finalTTL` of
5 seconds, the entry stored for a carries the expiry argument 5000000000, not
5. -/
theorem C11_store_ttl_is_nanosecond_count :
    (∀ (hc : halfCache) (now : Time) (c : Cache) (key : String) (value : Bytes),
      hc.updateCacheBody now c key value
        = (c.Set key (recordBytes (Unix (Add now hc.updateTTL)) (Unix (Add now hc.finalTTL))
            value) hc.finalTTL).1) ∧
    testHalfCache.finalTTL = 5 * 1000000000 ∧
    ((testHalfCache.MultiGet 0 100000000 ["a", "c"]).cache.entries "a").map
      CacheEntry.expireSeconds = some 5000000000 ∧
    (5000000000 : Int) ≠ 5 := by
  refine ⟨fun hc now c key value => hc.updateCacheBody_eq now c key value, by decide,
    by decide, by decide⟩

/-! ## The store after a call, and the keys of the response -/

/-- The store after a call: written by `updateCache` when there was something
to fetch and the collaborator succeeded, left as it was otherwise. -/
theorem halfCache.MultiGet_cache (hc : halfCache) (now later : Time) (keys : List String) :
    (hc.MultiGet now later keys).cache =
      if (hc.tryGetFromCache now keys).2.1 = []
          ∨ (hc.directMultiGet (hc.tryGetFromCache now keys).2.1).2 ≠ none
      then hc.cache
      else hc.updateCache later (hc.directMultiGet (hc.tryGetFromCache now keys).2.1).1 := by
  by_cases hdk : (hc.tryGetFromCache now keys).2.1 = []
  · rw [hc.MultiGet_nothing_to_fetch now later keys hdk, if_pos (Or.inl hdk)]
  · by_cases herr : (hc.directMultiGet (hc.tryGetFromCache now keys).2.1).2 = none
    · rw [hc.MultiGet_cache_of_fetch_ok now later keys hdk herr, if_neg]
      rintro (h | h)
      · exact hdk h
      · exact h herr
    · rw [if_pos (Or.inr herr)]
      by_cases hb : (hc.tryGetFromCache now keys).2.2 = true
      · rw [hc.MultiGet_blocking_error now later keys hb herr]
      · have hb' : (hc.tryGetFromCache now keys).2.2 = false := by simpa using hb
        rw [hc.MultiGet_detached now later keys hdk hb']
        simp [herr]

theorem halfCache.updateCache_entries_of_not_mem (hc : halfCache) (t : Time) (m : GoMap)
    (k : String) (hk : k ∉ m) : (hc.updateCache t m).entries k = hc.cache.entries k := by
  rw [hc.updateCache_entries, Finmap.lookup_eq_none.mpr hk]

/-- C17. Store frame of the refresh: after a call the store has, at every key
that is not a key of the collaborator's result, the entry or absence it had
before the call; the store is unchanged when the collaborator fails and when
there is nothing to fetch; and a key to fetch that the collaborator did not
return keeps what it had. -/
theorem C17_store_frame (hc : halfCache) (now later : Time) (keys : List String) :
    (∀ k, k ∉ (hc.directMultiGet (hc.tryGetFromCache now keys).2.1).1 →
      (hc.MultiGet now later keys).cache.entries k = hc.cache.entries k) ∧
    ((hc.directMultiGet (hc.tryGetFromCache now keys).2.1).2 ≠ none →
      (hc.MultiGet now later keys).cache = hc.cache) ∧
    ((hc.tryGetFromCache now keys).2.1 = [] → (hc.MultiGet now later keys).cache = hc.cache) ∧
    (∀ k ∈ (hc.tryGetFromCache now keys).2.1,
      k ∉ (hc.directMultiGet (hc.tryGetFromCache now keys).2.1).1 →
      (hc.MultiGet now later keys).cache.entries k = hc.cache.entries k) := by
  have hframe : ∀ k, k ∉ (hc.directMultiGet (hc.tryGetFromCache now keys).2.1).1 →
      (hc.MultiGet now later keys).cache.entries k = hc.cache.entries k := by
    intro k hk
    rw [hc.MultiGet_cache]
    split
    · rfl
    · exact hc.updateCache_entries_of_not_mem later _ k hk
  refine ⟨hframe, ?_, ?_, fun k _ hk => hframe k hk⟩
  · intro herr
    rw [hc.MultiGet_cache, if_pos (Or.inr herr)]
  · intro hdk
    rw [hc.MultiGet_cache, if_pos (Or.inl hdk)]

/-- C18. Result keys stay within the request: when every key of the map the
collaborator returns for the keys to fetch is one of those keys, every key of
the returned map is a requested key; and a call that blocked on a successful
fetch returns every pair of the collaborator's map, whatever its keys. -/
theorem C18_result_keys_within_request (hc : halfCache) (now later : Time)
    (keys : List String)
    (hsub : ∀ k ∈ (hc.directMultiGet (hc.tryGetFromCache now keys).2.1).1,
      k ∈ (hc.tryGetFromCache now keys).2.1) :
    (∀ res, (hc.MultiGet now later keys).ret = some res → ∀ k ∈ res, k ∈ keys) ∧
    ((hc.tryGetFromCache now keys).2.2 = true →
      (hc.directMultiGet (hc.tryGetFromCache now keys).2.1).2 = none →
      ∃ res, (hc.MultiGet now later keys).ret = some res ∧
        ∀ k v, (hc.directMultiGet (hc.tryGetFromCache now keys).2.1).1.lookup k = some v →
          res.lookup k = some v) := by
  have hserved : ∀ k ∈ (hc.tryGetFromCache now keys).1, k ∈ keys := by
    intro k hk
    rw [← Finmap.lookup_isSome, hc.tryGetFromCache_ret] at hk
    by_cases h : k ∈ keys ∧ (hc.classOf now k = .FRESH ∨ hc.classOf now k = .STALE)
    · exact h.1
    · rw [if_neg h] at hk
      cases hk
  constructor
  · intro res hres k hk
    by_cases hb : (hc.tryGetFromCache now keys).2.2 = true
    · by_cases herr : (hc.directMultiGet (hc.tryGetFromCache now keys).2.1).2 = none
      · rw [hc.MultiGet_blocking_ok now later keys hb herr] at hres
        have hres' := Option.some.inj hres
        subst hres'
        rw [backFillResult_eq_union, Finmap.mem_union] at hk
        rcases hk with h | h
        · exact ((hc.mem_directKeys_iff now keys k).mp (hsub k h)).1
        · exact hserved k h
      · rw [hc.MultiGet_blocking_error now later keys hb herr] at hres
        cases hres
    · have hb' : (hc.tryGetFromCache now keys).2.2 = false := by simpa using hb
      by_cases hdk : (hc.tryGetFromCache now keys).2.1 = []
      · rw [hc.MultiGet_nothing_to_fetch now later keys hdk] at hres
        have hres' := Option.some.inj hres
        subst hres'
        exact hserved k hk
      · rw [hc.MultiGet_detached now later keys hdk hb'] at hres
        have hres' := Option.some.inj hres
        subst hres'
        exact hserved k hk
  · intro hb herr
    rw [hc.MultiGet_blocking_ok now later keys hb herr]
    refine ⟨_, rfl, fun k v hkv => ?_⟩
    rw [backFillResult_lookup, hkv]

/-- C18 on the test's second call: asked for b alone, the collaborator returns
b alone, and the keys of the response are among a, b and c. -/
theorem C18_result_keys_within_request_witness :
    (∀ k ∈ ((filledHalfCache testDirectMultiGet).directMultiGet
        ((filledHalfCache testDirectMultiGet).tryGetFromCache 200000000 ["a", "b", "c"]).2.1).1,
      k ∈ ((filledHalfCache testDirectMultiGet).tryGetFromCache 200000000 ["a", "b", "c"]).2.1) ∧
    (∀ res, ((filledHalfCache testDirectMultiGet).MultiGet 200000000 300000000
        ["a", "b", "c"]).ret = some res → ∀ k ∈ res, k ∈ ["a", "b", "c"]) :=
  have hsub : ∀ k ∈ ((filledHalfCache testDirectMultiGet).directMultiGet
        ((filledHalfCache testDirectMultiGet).tryGetFromCache 200000000 ["a", "b", "c"]).2.1).1,
      k ∈ ((filledHalfCache testDirectMultiGet).tryGetFromCache 200000000 ["a", "b", "c"]).2.1 := by
    intro k hk
    have hdk : ((filledHalfCache testDirectMultiGet).tryGetFromCache 200000000
        ["a", "b", "c"]).2.1 = ["b"] := by decide
    have hm : ((filledHalfCache testDirectMultiGet).directMultiGet ["b"]).1
        = Finmap.insert "b" [98, 98, 98] ∅ := rfl
    rw [hdk] at hk ⊢
    rw [hm, Finmap.mem_insert] at hk
    rcases hk with h | h
    · rw [h]
      decide
    · exact absurd h (Finmap.not_mem_empty)
  ⟨hsub, (C18_result_keys_within_request (filledHalfCache testDirectMultiGet) 200000000
    300000000 ["a", "b", "c"] hsub).1⟩

end Halfcache
